import Mathlib

set_option linter.unusedVariables false

/-!
Verification of the virtual-code composition and diagnostic back-mapping engine
of the `vue-tsgo` repository, against its natural-language specification.

The definitions below are shallow embeddings of the TypeScript sources:
  * `src/core/codegen/index.ts` — `createMappings`, `createOffsetGetter`,
    `createLineAndColumnGetter`;
  * `src/core/project.ts` — `isVerificationEnabled`, `parseDiagnostics`, the
    diagnostic remap loop of `check`;
  * `src/codegen/codeFeatures.ts` — the `doNotReportTs2339AndTs2551` policy;
  * the boundary utility (`generateBoundary`).
JavaScript strings are modelled as Lean strings or `List Char` (one element per
UTF-16 unit of the inputs considered), JavaScript numbers as `Int`/`Nat`, the
value `undefined`/`NaN` as `Option.none` where it can occur, and `symbol`
combine tokens as `Nat` identities.
-/

namespace VueTsgo

/-- A JavaScript value as it can reach a `shouldReport` callback parameter:
either `undefined` or a number (the diagnostic code). -/
inductive JsArg where
  | undef
  | num (n : Nat)
deriving Repr, DecidableEq

/-- JavaScript `String(x)` on such a value: `String(undefined) = "undefined"`. -/
def jsString : JsArg → String
  | .undef => "undefined"
  | .num n => toString n

/-- The `verification` field of `CodeInformation` (src/core/types.ts):
`boolean | { shouldReport?: (source, code) => boolean }`. -/
inductive Verification where
  | bool (b : Bool)
  | obj (shouldReport : Option (JsArg → JsArg → Bool))

/-- Embeds `CodeInformation` from src/core/types.ts: optional verification policy and
optional combine token (`__combineToken?: symbol`, modelled as a `Nat` id). -/
structure CodeInformation where
  verification : Option Verification := none
  combineToken : Option Nat := none

/-- Embeds `isVerificationEnabled` from src/core/project.ts:
`data.verification === true || typeof data.verification === "object" &&
data.verification.shouldReport?.(code) === true`.
The call passes a single argument, so the callback's first parameter (declared
`source`) receives the numeric code, and its second parameter (declared `code`)
receives `undefined`. -/
def isVerificationEnabled (data : CodeInformation) (code : Nat) : Bool :=
  match data.verification with
  | some (.bool b) => b
  | some (.obj (some f)) => f (.num code) .undef
  | some (.obj none) => false
  | none => false

/-- The `shouldReport` callback of `codeFeatures.doNotReportTs2339AndTs2551`
(src/codegen/codeFeatures.ts):
`(_source, code) => String(code) !== "2339" && String(code) !== "2551"`. -/
def shouldReportNot2339Not2551 (_source code : JsArg) : Bool :=
  jsString code != "2339" && jsString code != "2551"

/-- Embeds `codeFeatures.doNotReportTs2339AndTs2551` from src/codegen/codeFeatures.ts. -/
def doNotReportTs2339AndTs2551 : CodeInformation :=
  { verification := some (.obj (some shouldReportNot2339Not2551)) }

/-- A `Code` segment (muggle-string `Segment<CodeInformation>`): either a plain
string or `[text, source, offset, data]`. -/
inductive Code where
  | text (s : String)
  | mapped (text : String) (source : Option String) (offset : Nat) (data : CodeInformation)

/-- A `Mapping<CodeInformation>` as constructed by `createMappings`
(src/core/codegen/index.ts): three parallel arrays plus the metadata. -/
structure Mapping where
  sourceOffsets : List Nat
  generatedOffsets : List Nat
  lengths : List Nat
  data : CodeInformation

/-- First pass of `createMappings`: walk the code segments with a running
generated-length counter; each mapped segment yields a single-point mapping. -/
def originalMappingsAux : List Code → Nat → List Mapping
  | [], _ => []
  | .text s :: rest, len => originalMappingsAux rest (len + s.length)
  | .mapped t _src off d :: rest, len =>
      { sourceOffsets := [off], generatedOffsets := [len], lengths := [t.length], data := d } ::
        originalMappingsAux rest (len + t.length)

def originalMappings (codes : List Code) : List Mapping :=
  originalMappingsAux codes 0

/-- Replace the element at index `i` (used to model the in-place mutation of
the shared mapping object stored in the `tokens` record). -/
def modifyIdx : List α → Nat → (α → α) → List α
  | [], _, _ => []
  | a :: as, 0, f => f a :: as
  | a :: as, n + 1, f => a :: modifyIdx as n f

/-- Embeds `target.sourceOffsets.push(...mapping.sourceOffsets)` etc.: append the
(singleton) arrays of a later same-token occurrence onto the representative. -/
def appendTo (target m : Mapping) : Mapping :=
  { target with
    sourceOffsets := target.sourceOffsets ++ m.sourceOffsets,
    generatedOffsets := target.generatedOffsets ++ m.generatedOffsets,
    lengths := target.lengths ++ m.lengths }

/-- One iteration of the second pass of `createMappings`. The state is the
output list built so far together with the `tokens` record, modelled as an
association list mapping a token to the index of its representative entry. -/
def combineStep (st : List Mapping × List (Nat × Nat)) (m : Mapping) :
    List Mapping × List (Nat × Nat) :=
  match m.data.combineToken with
  | some token =>
    match st.2.lookup token with
    | some i => (modifyIdx st.1 i (fun target => appendTo target m), st.2)
    | none => (st.1 ++ [m], st.2 ++ [(token, st.1.length)])
  | none => (st.1 ++ [m], st.2)

/-- Second pass of `createMappings`: combine same-token entries. -/
def compactMappings (oms : List Mapping) : List Mapping :=
  (oms.foldl combineStep ([], [])).1

/-- Embeds `createMappings` from src/core/codegen/index.ts. -/
def createMappings (codes : List Code) : List Mapping :=
  compactMappings (originalMappings codes)

/-- Boolean test: does this entry carry combine token `t`? -/
def hasTok (t : Nat) (m : Mapping) : Bool :=
  m.data.combineToken == some t

/-- Boolean test: does this entry carry no combine token? -/
def noTok (m : Mapping) : Bool :=
  m.data.combineToken == none

/- ### The line/offset index (src/core/codegen/index.ts) -/

/-- The loop body shared by `createOffsetGetter` and
`createLineAndColumnGetter`: record the offset just after each newline. -/
def lineOffsetsAux : List Char → Nat → List Nat
  | [], _ => []
  | c :: rest, i =>
      if c == '\n' then (i + 1) :: lineOffsetsAux rest (i + 1)
      else lineOffsetsAux rest (i + 1)

def lineOffsetsOf (text : String) : List Nat :=
  0 :: lineOffsetsAux text.toList 0

/-- Embeds `createOffsetGetter`: `lineOffsets[line - 1] + column - 1`. Indexing the
array out of range gives `undefined`, which propagates as `NaN` through the
arithmetic; this is modelled as `none`. -/
def createOffsetGetter (text : String) (line column : Int) : Option Int :=
  let offs := lineOffsetsOf text
  if 1 ≤ line ∧ line ≤ (offs.length : Int) then
    some ((offs.getD (line - 1).toNat 0 : Int) + column - 1)
  else none

/-- The search loop of `createLineAndColumnGetter`: scan `lineOffsets`,
breaking at the first entry greater than `offset`, remembering the index of
the last entry not greater than it. -/
def findLineAux : List Nat → Int → Nat → Nat → Nat
  | [], _, _, line => line
  | o :: rest, offset, i, line =>
      if (o : Int) > offset then line else findLineAux rest offset (i + 1) i

/-- A 1-based (line, column) position; fields are JavaScript numbers. -/
structure Pos where
  line : Int
  column : Int
deriving Repr, DecidableEq

/-- Embeds `createLineAndColumnGetter` from src/core/codegen/index.ts. -/
def createLineAndColumnGetter (text : String) (offset : Int) : Pos :=
  let offs := lineOffsetsOf text
  let line := findLineAux offs offset 0 0
  ⟨(line : Int) + 1, offset - (offs.getD line 0 : Int) + 1⟩

/- ### The bidirectional position map query (modelled from the spec) -/

/-- The offsets yielded by one mapping entry for generated offset `g`:
indices are scanned in array order; index `i` matches when
`generatedOffsets[i] ≤ g ≤ generatedOffsets[i] + lengths[i]`, yielding
`sourceOffsets[i] + (g - generatedOffsets[i])`. -/
def entryYields (m : Mapping) (g : Int) : List Int :=
  (m.sourceOffsets.zip (m.generatedOffsets.zip m.lengths)).filterMap
    (fun x =>
      if (x.2.1 : Int) ≤ g ∧ g ≤ (x.2.1 : Int) + (x.2.2 : Int) then
        some ((x.1 : Int) + (g - (x.2.1 : Int)))
      else none)

/-- Modelled from the spec: the backward query of the Bidirectional Position
Map (`SourceMap.toSourceLocation` of the external mapping library, whose code
is not part of this repository). Per spec section 4.3, entries are scanned in
PositionMap order and, within an entry, indices in array order; only entries
whose metadata satisfies the predicate yield. A `NaN` generated offset
(modelled as `none`) matches no entry. -/
def toSourceLocation (mappings : List Mapping) (g : Option Int)
    (accept : CodeInformation → Bool) : List Int :=
  match g with
  | none => []
  | some off =>
      (mappings.map (fun m => if accept m.data then entryYields m off else [])).flatten

/- ### The diagnostic parser (src/core/project.ts, `parseDiagnostics`) -/

/-- A parsed `Diagnostic` (src/core/project.ts): positions are 1-based and,
before remapping, relative to the synthesized text. -/
structure Diagnostic where
  path : String
  start : Pos
  endPos : Pos
  code : Nat
  message : String
deriving Repr, DecidableEq

/-- The capture groups of the header pattern
`^(?<path>.*?):(?<line>\d+):(?<column>\d+) - error TS(?<code>\d+): (?<message>.*)$`. -/
structure HeaderMatch where
  path : String
  line : Nat
  column : Nat
  code : Nat
  message : String
deriving Repr, DecidableEq

def digitsToNat (ds : List Char) : Nat :=
  ds.foldl (fun n c => n * 10 + (c.toNat - '0'.toNat)) 0

/-- Consume an exact literal from the front of the character list. -/
def dropLit : List Char → List Char → Option (List Char)
  | [], cs => some cs
  | l :: ls, c :: cs => if c == l then dropLit ls cs else none
  | _ :: _, [] => none

/-- Try to match `:(\d+):(\d+) - error TS(\d+): (.*)$` against `cs`, with
`path` the (already fixed) text before it. Each `\d+` is a maximal nonempty
digit run; since the character after each run is not a digit, greedy matching
is deterministic here. -/
def matchTail (path : List Char) (cs : List Char) : Option HeaderMatch :=
  match cs with
  | ':' :: rest =>
    let ds1 := rest.takeWhile Char.isDigit
    if ds1.isEmpty then none else
    match rest.dropWhile Char.isDigit with
    | ':' :: rest2 =>
      let ds2 := rest2.takeWhile Char.isDigit
      if ds2.isEmpty then none else
      match dropLit " - error TS".toList (rest2.dropWhile Char.isDigit) with
      | some rest4 =>
        let ds3 := rest4.takeWhile Char.isDigit
        if ds3.isEmpty then none else
        match rest4.dropWhile Char.isDigit with
        | ':' :: ' ' :: msg =>
            some ⟨path.asString, digitsToNat ds1, digitsToNat ds2, digitsToNat ds3,
              msg.asString⟩
        | _ => none
      | none => none
    | _ => none
  | _ => none

/-- The lazy `(?<path>.*?)` group: try the shortest path first, then grow it
one character at a time, exactly as a backtracking regex engine does for a
line with no newline in it. -/
def matchHeaderFrom (pathRev cs : List Char) : Option HeaderMatch :=
  match matchTail pathRev.reverse cs with
  | some h => some h
  | none =>
    match cs with
    | [] => none
    | c :: rest => matchHeaderFrom (c :: pathRev) rest

/-- Whether a line matches `diagnosticRE` (anchored at both ends). -/
def matchHeader (cs : List Char) : Option HeaderMatch :=
  matchHeaderFrom [] cs

/-- Embeds `text.lastIndexOf("~")`: index of the last tilde, `-1` when absent. -/
def lastIdxOfAux : List Char → Char → Int → Int → Int
  | [], _, _, best => best
  | x :: rest, c, i, best => lastIdxOfAux rest c (i + 1) (if x == c then i else best)

def lastIdxOf (cs : List Char) (c : Char) : Int :=
  lastIdxOfAux cs c 0 (-1)

/-- The mutable locals of the `parseDiagnostics` loop. -/
structure ParseState where
  diagnostics : List Diagnostic
  cursor : Nat
  padding : Nat
deriving Repr, DecidableEq

/-- The diagnostic pushed for a matched header: end position left at the
unset sentinel `(0, 0)`. `resolve(path)` is modelled as the identity (it only
normalizes the path string). -/
def mkDiagnostic (h : HeaderMatch) : Diagnostic :=
  { path := h.path, code := h.code,
    start := ⟨(h.line : Int), (h.column : Int)⟩,
    endPos := ⟨0, 0⟩,
    message := h.message }

/-- One iteration of the `parseDiagnostics` loop (src/core/project.ts lines
238-270). The `.error` case models the crash of `diagnostics.at(-1)!` when a
tilde-bearing line at odd cursor parity arrives while no diagnostic has been
pushed yet (setting `.end` on `undefined` throws a TypeError). -/
def parseStep (s : ParseState) (text : List Char) : Except Unit ParseState :=
  match matchHeader text with
  | some h =>
      .ok { diagnostics := s.diagnostics ++ [mkDiagnostic h], cursor := 1,
            padding := s.padding }
  | none =>
    if s.cursor % 2 == 0 && !text.isEmpty then
      .ok { s with padding := (text.takeWhile (fun c => c != ' ')).length,
                   cursor := s.cursor + 1 }
    else if s.cursor % 2 == 1 && text.contains '~' then
      match s.diagnostics.getLast? with
      | none => .error ()
      | some d =>
          .ok { s with
            diagnostics := s.diagnostics.dropLast ++
              [{ d with endPos := ⟨d.start.line + (((s.cursor : Int) - 3) / 2),
                                   lastIdxOf text '~' + 1 - (s.padding : Int)⟩ }],
            cursor := s.cursor + 1 }
    else .ok { s with cursor := s.cursor + 1 }

/-- Run the loop over all lines. -/
def parseRun (s : ParseState) : List (List Char) → Except Unit ParseState
  | [] => .ok s
  | l :: rest =>
    match parseStep s l with
    | .ok s2 => parseRun s2 rest
    | .error e => .error e

/-- Append a diagnostic to its path's group, preserving first-encounter group
order (the `groups[diagnostic.path]` record). -/
def addToGroup (groups : List (String × List Diagnostic)) (d : Diagnostic) :
    List (String × List Diagnostic) :=
  match groups with
  | [] => [(d.path, [d])]
  | (p, g) :: rest =>
      if p == d.path then (p, g ++ [d]) :: rest else (p, g) :: addToGroup rest d

def groupByPath (ds : List Diagnostic) : List (String × List Diagnostic) :=
  ds.foldl addToGroup []

/-- Whitespace for the purposes of `String.prototype.trim` (restricted to the
characters occurring in checker output). -/
def isJsSpace (c : Char) : Bool :=
  c == ' ' || c == '\n' || c == '\t' || c == '\r'

/-- Embeds `stdout.trim()`: strip whitespace from both ends. -/
def trimChars (cs : List Char) : List Char :=
  ((cs.dropWhile isJsSpace).reverse.dropWhile isJsSpace).reverse

/-- Embeds `.split("\n")`: split on newline separators; the empty string yields one
empty piece, as in JavaScript. -/
def splitLinesAux : List Char → List Char → List (List Char)
  | [], acc => [acc.reverse]
  | c :: rest, acc =>
      if c == '\n' then acc.reverse :: splitLinesAux rest []
      else splitLinesAux rest (c :: acc)

def splitLines (cs : List Char) : List (List Char) :=
  splitLinesAux cs []

/-- Embeds `parseDiagnostics` from src/core/project.ts: split the trimmed checker
output on newlines, run the line loop, group by path. -/
def parseDiagnostics (stdout : String) :
    Except Unit (List (String × List Diagnostic)) :=
  match parseRun ⟨[], 0, 0⟩ (splitLines (trimChars stdout.toList)) with
  | .ok s => .ok (groupByPath s.diagnostics)
  | .error e => .error e

/- ### The boundary utility (`generateBoundary`, open form) -/

/-- The open form of `generateBoundary`: yields the opening zero-length
fragment `["", source, start, { ...features, __combineToken: token }]` and
returns the closer `(offset) => ["", source, offset, { __combineToken:
token }]`. The freshly minted `Symbol(source)` is modelled by the explicit
`token` identity. -/
def generateBoundaryOpen (source : String) (start : Nat) (features : CodeInformation)
    (token : Nat) : Code × (Nat → Code) :=
  (.mapped "" (some source) start { features with combineToken := some token },
   fun offset => .mapped "" (some source) offset { combineToken := some token })

/- ### The diagnostic remap loop of `check` (src/core/project.ts) -/

/-- The pieces of a `SourceFile` that the remap loop reads. -/
structure SourceFileModel where
  sourcePath : String
  sourceText : String
  virtualText : String
  mappings : List Mapping

/-- JavaScript truthiness of a `number | undefined`: `undefined` and `0` are
falsy (`if (!left || !right)`). -/
def jsTruthy : Option Int → Bool
  | none => false
  | some v => v != 0

/-- Embeds `for (const [offset] of mapper.toSourceLocation(...)) { left = offset;
break; }`: take the first yielded source offset, if any. -/
def firstSourceOffset (sf : SourceFileModel) (g : Option Int) (code : Nat) : Option Int :=
  (toSourceLocation sf.mappings g (fun data => isVerificationEnabled data code)).head?

/-- One iteration of the remap loop in `check` (src/core/project.ts lines
152-188): convert both diagnostic corners to generated offsets, run the
filtered backward query for each, discard when `!left || !right`, otherwise
rewrite both corners through the original text's line/column getter. -/
def remapOne (sf : SourceFileModel) (d : Diagnostic) : Option Diagnostic :=
  let start := createOffsetGetter sf.virtualText d.start.line d.start.column
  let stop := createOffsetGetter sf.virtualText d.endPos.line d.endPos.column
  let left := firstSourceOffset sf start d.code
  let right := firstSourceOffset sf stop d.code
  if jsTruthy left && jsTruthy right then
    some { d with
      start := createLineAndColumnGetter sf.sourceText (left.getD 0),
      endPos := createLineAndColumnGetter sf.sourceText (right.getD 0) }
  else none

/-- The surviving diagnostics of one path group, re-homed to the original
file's path (the loop renders each retained diagnostic under
`sourceFile.sourcePath`). -/
def checkGroup (sf : SourceFileModel) (ds : List Diagnostic) : List Diagnostic :=
  (ds.filterMap (remapOne sf)).map (fun d => { d with path := sf.sourcePath })

/- ### Concrete instances used by counterexamples and witnesses -/

/-- A mapping entry carrying the `doNotReportTs2339AndTs2551` policy. -/
def entry2339 : Mapping := ⟨[10], [0], [2], doNotReportTs2339AndTs2551⟩

/-- Metadata with `verification: true`. -/
def featVerificationOn : CodeInformation := { verification := some (.bool true) }

/-- A virtual file whose single mapping entry starts at source offset `0`. -/
def sfZero : SourceFileModel :=
  { sourcePath := "/src/a.vue", sourceText := "ab", virtualText := "ab",
    mappings := [⟨[0], [0], [1], featVerificationOn⟩] }

/-- A diagnostic whose start corner maps back to source offset `0`. -/
def diagZero : Diagnostic :=
  { path := "/cache/a.vue.ts", start := ⟨1, 1⟩, endPos := ⟨1, 2⟩, code := 2339,
    message := "m" }

/- ### C1 -/

/-- C1: the claim states that a conditional policy rejecting code 2339 (such
as `doNotReportTs2339AndTs2551`) makes the filtered backward query yield
nothing for code 2339. The code behaves otherwise: `isVerificationEnabled`
invokes `shouldReport` with a single argument, so the diagnostic code lands in
the callback's `source` parameter and its `code` parameter is `undefined`;
`String(undefined) = "undefined"` differs from `"2339"` and `"2551"`, hence
the policy accepts every code and the query still yields. The third and
fourth conjuncts show that the callback, applied as its declared two-parameter
signature intends, does reject 2339 and 2551 — the call site's arity is the
slip. -/
theorem suppression_filtering_bug :
    isVerificationEnabled doNotReportTs2339AndTs2551 2339 = true ∧
    isVerificationEnabled doNotReportTs2339AndTs2551 2551 = true ∧
    shouldReportNot2339Not2551 .undef (.num 2339) = false ∧
    shouldReportNot2339Not2551 .undef (.num 2551) = false ∧
    toSourceLocation [entry2339] (some 0) (fun data => isVerificationEnabled data 2339)
      = [10] :=
  ⟨rfl, rfl, rfl, rfl, rfl⟩

/- ### C3 -/

/-- C3 counterexample: the closer returned by the open form of
`generateBoundary` emits a fragment whose metadata holds only the combine
token; with `features = { verification: true }` the closing fragment does not
carry the opening metadata, contradicting the claim's "same metadata m". -/
theorem boundary_closer_metadata_cex :
    ((generateBoundaryOpen "template" 0 featVerificationOn 1).2 5 =
      Code.mapped "" (some "template") 5 { combineToken := some 1 }) ∧
    ¬ ((generateBoundaryOpen "template" 0 featVerificationOn 1).2 5 =
      Code.mapped "" (some "template") 5
        { featVerificationOn with combineToken := some 1 }) := by
  refine ⟨rfl, fun h => ?_⟩
  have h2 := congrArg (fun c => match c with
    | Code.mapped _ _ _ d => d.verification
    | Code.text _ => none) h
  simp [generateBoundaryOpen, featVerificationOn] at h2

/-- C3 amended: the closer emits a zero-length fragment at the given end
offset carrying the same freshly minted combine token as the opening
fragment, but its metadata consists solely of that token — the opening
metadata `m` is not copied onto the closing fragment. -/
theorem boundary_closer_spec (source : String) (start : Nat)
    (features : CodeInformation) (token endOffset : Nat) :
    (generateBoundaryOpen source start features token).1 =
      Code.mapped "" (some source) start { features with combineToken := some token } ∧
    (generateBoundaryOpen source start features token).2 endOffset =
      Code.mapped "" (some source) endOffset
        { verification := none, combineToken := some token } :=
  ⟨rfl, rfl⟩

/- ### C2 counterexample -/

/-- C2 counterexample: for `sfZero`/`diagZero`, the predicate-filtered
backward query yields an offset for both corners (`0` for the start, `1` for
the end), yet the diagnostic is discarded, because `if (!left || !right)`
treats the yielded source offset `0` as falsy. -/
theorem remap_zero_offset_discard_cex :
    firstSourceOffset sfZero (createOffsetGetter sfZero.virtualText 1 1) 2339 = some 0 ∧
    firstSourceOffset sfZero (createOffsetGetter sfZero.virtualText 1 2) 2339 = some 1 ∧
    remapOne sfZero diagZero = none :=
  ⟨rfl, rfl, rfl⟩

/- ### C6 counterexample -/

/-- C6 counterexample: on the checker output `"x\n~~~"` the tilde-bearing
second line arrives at odd cursor parity before any diagnostic header, so
`diagnostics.at(-1)!` is `undefined` and the assignment to its `.end` throws;
parsing does not terminate normally. -/
theorem parse_tilde_before_header_crash :
    parseDiagnostics "x\n~~~" = .error () := by
  rfl

/- ### C8: line/column round trip -/

theorem findLineAux_eq (o : Int) (l : List Nat) : ∀ (i line : Nat),
    findLineAux l o i line =
      if (l.takeWhile (fun x : Nat => decide ((x : Int) ≤ o))).length = 0 then line
      else i + (l.takeWhile (fun x : Nat => decide ((x : Int) ≤ o))).length - 1 := by
  induction l with
  | nil => intro i line; simp [findLineAux]
  | cons x rest ih =>
    intro i line
    by_cases hx : (x : Int) > o
    · have hnle : ¬ ((x : Int) ≤ o) := by omega
      simp [findLineAux, hx, List.takeWhile_cons, hnle]
    · have hle : (x : Int) ≤ o := by omega
      rw [findLineAux, if_neg hx, ih (i + 1) i]
      rw [List.takeWhile_cons, decide_eq_true hle]
      simp only [if_true, List.length_cons]
      by_cases h0 : (rest.takeWhile (fun x : Nat => decide ((x : Int) ≤ o))).length = 0
      · simp [h0]
      · rw [if_neg h0, if_neg (Nat.succ_ne_zero _)]
        omega

theorem getD_of_lt_takeWhile (p : Nat → Bool) (d : Nat) :
    ∀ (l : List Nat) (i : Nat), i < (l.takeWhile p).length → p (l.getD i d) = true := by
  intro l
  induction l with
  | nil => intro i h; simp at h
  | cons x rest ih =>
    intro i h
    by_cases hx : p x
    · cases i with
      | zero => simpa using hx
      | succ j =>
        simp only [List.takeWhile_cons, hx, if_true, List.length_cons] at h
        have hj : j < (rest.takeWhile p).length := by omega
        simpa using ih j hj
    · simp [List.takeWhile_cons, hx] at h

/-- C8: for every text and every valid offset `o` into it, converting `o`
to a 1-based (line, column) pair with `createLineAndColumnGetter` and back
with `createOffsetGetter` built over the same text returns exactly `o`. -/
theorem line_column_round_trip (text : String) (o : Int)
    (h0 : 0 ≤ o) (h1 : o < (text.length : Int)) :
    createOffsetGetter text
      (createLineAndColumnGetter text o).line
      (createLineAndColumnGetter text o).column = some o := by
  have hlc : createLineAndColumnGetter text o =
      ⟨(findLineAux (lineOffsetsOf text) o 0 0 : Int) + 1,
       o - ((lineOffsetsOf text).getD (findLineAux (lineOffsetsOf text) o 0 0) 0 : Int) + 1⟩ :=
    rfl
  set offs := lineOffsetsOf text with hoffs
  set p : Nat → Bool := fun x : Nat => decide ((x : Int) ≤ o) with hp
  have hhead : offs = 0 :: lineOffsetsAux text.toList 0 := rfl
  have hp0 : p 0 = true := by rw [hp]; simp; omega
  have htwlen : (offs.takeWhile p).length ≠ 0 := by
    rw [hhead]
    simp [List.takeWhile_cons, hp0]
  set L := findLineAux offs o 0 0 with hL
  have hLeq : L = (offs.takeWhile p).length - 1 := by
    rw [hL, findLineAux_eq o offs 0 0, ← hp, if_neg htwlen]
    omega
  have hLlt : L < offs.length := by
    have hle := (List.takeWhile_sublist (l := offs) (p := p)).length_le
    omega
  have hgetD : p (offs.getD L 0) = true := by
    apply getD_of_lt_takeWhile
    omega
  have hgle : ((offs.getD L 0 : Nat) : Int) ≤ o := by
    rw [hp] at hgetD
    exact of_decide_eq_true hgetD
  rw [hlc]
  show createOffsetGetter text ((L : Int) + 1) (o - (offs.getD L 0 : Int) + 1) = some o
  rw [createOffsetGetter]
  have hcond : 1 ≤ (L : Int) + 1 ∧ (L : Int) + 1 ≤ ((lineOffsetsOf text).length : Int) := by
    constructor
    · omega
    · rw [← hoffs]; omega
  rw [if_pos hcond]
  have hidx : ((L : Int) + 1 - 1).toNat = L := by omega
  rw [hidx, ← hoffs]
  congr 1
  omega

/-- C8 witness: the theorem applied to the text `"ab\ncd"` at offset `3`. -/
theorem line_column_round_trip_witness :
    (0 ≤ (3 : Int) ∧ (3 : Int) < ("ab\ncd".length : Int)) ∧
    createOffsetGetter "ab\ncd"
      (createLineAndColumnGetter "ab\ncd" 3).line
      (createLineAndColumnGetter "ab\ncd" 3).column = some 3 :=
  ⟨⟨by decide, by decide⟩, line_column_round_trip "ab\ncd" 3 (by decide) (by decide)⟩

/- ### C5: end-position formula of the diagnostic parser -/

/-- C5: when a non-header line containing a tilde is reached at odd line
counter value `cursor`, the last diagnostic's end position is set to
`endLine = startLine + (cursor - 3) / 2` and `endCol = lastIndexOf('~') + 1 -
padding`; and (second conjunct) `padding` is maintained as the character
length of the most recent nonempty even-parity snippet line's content up to
its first space. -/
theorem parse_end_position_formula (s : ParseState) (text : List Char)
    (ds : List Diagnostic) (d : Diagnostic)
    (hds : s.diagnostics = ds ++ [d])
    (hh : matchHeader text = none)
    (hodd : s.cursor % 2 = 1)
    (ht : text.contains '~' = true) :
    parseStep s text = .ok { s with
      diagnostics := ds ++ [{ d with endPos :=
        ⟨d.start.line + (((s.cursor : Int) - 3) / 2),
         lastIdxOf text '~' + 1 - (s.padding : Int)⟩ }],
      cursor := s.cursor + 1 } ∧
    ∀ (s2 : ParseState) (snippet : List Char), matchHeader snippet = none →
      s2.cursor % 2 = 0 → snippet ≠ [] →
      parseStep s2 snippet = .ok { s2 with
        padding := (snippet.takeWhile (fun c => c != ' ')).length,
        cursor := s2.cursor + 1 } := by
  constructor
  · rw [parseStep, hh]
    have hc0 : (s.cursor % 2 == 0) = false := by simp [hodd]
    have hc1 : (s.cursor % 2 == 1) = true := by simp [hodd]
    simp only [hc0, Bool.false_and, if_false, Bool.false_eq_true, hc1, ht,
      Bool.and_self, if_true, hds, List.getLast?_concat, List.dropLast_concat]
  · intro s2 snippet hh2 heven hne
    rw [parseStep, hh2]
    have hc0 : (s2.cursor % 2 == 0) = true := by simp [heven]
    have hne2 : snippet.isEmpty = false := by
      cases snippet with
      | nil => exact absurd rfl hne
      | cons a l => rfl
    simp only [hc0, hne2, Bool.not_false, Bool.and_self, if_true]

/-- C5 witness: a concrete state (one pushed diagnostic, cursor 3, padding 2)
and the underline line `"  ~~"`. -/
theorem parse_end_position_formula_witness :
    ((⟨[⟨"a.ts", ⟨4, 7⟩, ⟨0, 0⟩, 5, "m"⟩], 3, 2⟩ : ParseState).diagnostics
        = [] ++ [⟨"a.ts", ⟨4, 7⟩, ⟨0, 0⟩, 5, "m"⟩] ∧
      matchHeader "  ~~".toList = none ∧
      (3 : Nat) % 2 = 1 ∧
      "  ~~".toList.contains '~' = true) ∧
    parseStep ⟨[⟨"a.ts", ⟨4, 7⟩, ⟨0, 0⟩, 5, "m"⟩], 3, 2⟩ "  ~~".toList =
      .ok ⟨[⟨"a.ts", ⟨4, 7⟩, ⟨4, 2⟩, 5, "m"⟩], 4, 2⟩ := by
  refine ⟨⟨rfl, rfl, rfl, rfl⟩, ?_⟩
  have h := (parse_end_position_formula ⟨[⟨"a.ts", ⟨4, 7⟩, ⟨0, 0⟩, 5, "m"⟩], 3, 2⟩
    "  ~~".toList [] ⟨"a.ts", ⟨4, 7⟩, ⟨0, 0⟩, 5, "m"⟩ rfl rfl rfl rfl).1
  exact h

/- ### C6/C7: safety and discard lemmas for the parser run -/

/-- The crash precondition: before the first header line, no tilde-bearing
line occurs at odd cursor parity. `c` is the cursor value at the head line. -/
def noEarlyOddTilde : Nat → List (List Char) → Bool
  | _, [] => true
  | c, l :: rest =>
    match matchHeader l with
    | some _ => true
    | none => !(c % 2 == 1 && l.contains '~') && noEarlyOddTilde (c + 1) rest

/-- Once a diagnostic has been pushed, every later step succeeds, the
diagnostic list stays nonempty, and its length grows exactly with the header
lines. -/
theorem parseStep_ok_of_ne_nil (s : ParseState) (l : List Char)
    (hs : s.diagnostics ≠ []) :
    ∃ s2, parseStep s l = .ok s2 ∧
      s2.diagnostics.length =
        s.diagnostics.length + (if (matchHeader l).isSome then 1 else 0) ∧
      s2.diagnostics ≠ [] := by
  rw [parseStep]
  cases hm : matchHeader l with
  | some h =>
    refine ⟨_, rfl, ?_, ?_⟩
    · simp
    · simp
  | none =>
    by_cases h0 : (s.cursor % 2 == 0 && !l.isEmpty) = true
    · rw [if_pos h0]; exact ⟨_, rfl, by simp, hs⟩
    · rw [if_neg h0]
      by_cases h1 : (s.cursor % 2 == 1 && l.contains '~') = true
      · rw [if_pos h1]
        cases hgl : s.diagnostics.getLast? with
        | none =>
          exact absurd (List.getLast?_eq_none_iff.mp hgl) hs
        | some d =>
          have hpos : 0 < s.diagnostics.length := List.length_pos.mpr hs
          refine ⟨_, rfl, ?_, ?_⟩
          · simp
            omega
          · simp
      · rw [if_neg h1]; exact ⟨_, rfl, by simp, hs⟩

theorem parseRun_of_ne_nil : ∀ (lines : List (List Char)) (s : ParseState),
    s.diagnostics ≠ [] → ∃ s2, parseRun s lines = .ok s2 ∧
      s2.diagnostics.length = s.diagnostics.length +
        lines.countP (fun l => (matchHeader l).isSome) ∧
      s2.diagnostics ≠ [] := by
  intro lines
  induction lines with
  | nil => intro s hs; exact ⟨s, rfl, by simp, hs⟩
  | cons l rest ih =>
    intro s hs
    obtain ⟨s1, hstep, hlen, hne⟩ := parseStep_ok_of_ne_nil s l hs
    obtain ⟨s2, hrun, hlen2, hne2⟩ := ih s1 hne
    refine ⟨s2, ?_, ?_, hne2⟩
    · rw [parseRun, hstep]; exact hrun
    · rw [hlen2, hlen, List.countP_cons]
      by_cases hm : (matchHeader l).isSome <;> simp [hm] <;> omega

theorem parseRun_safe_aux : ∀ (lines : List (List Char)) (s : ParseState),
    noEarlyOddTilde s.cursor lines = true → s.diagnostics = [] →
    ∃ s2, parseRun s lines = .ok s2 ∧
      s2.diagnostics.length = lines.countP (fun l => (matchHeader l).isSome) := by
  intro lines
  induction lines with
  | nil => intro s _ hd; exact ⟨s, rfl, by simp [hd]⟩
  | cons l rest ih =>
    intro s hsafe hd
    rw [noEarlyOddTilde] at hsafe
    cases hm : matchHeader l with
    | some h =>
      have hstep : parseStep s l =
          .ok { diagnostics := s.diagnostics ++ [mkDiagnostic h], cursor := 1,
                padding := s.padding } := by
        rw [parseStep, hm]
      obtain ⟨s2, hrun, hlen2, _⟩ := parseRun_of_ne_nil rest
        { diagnostics := s.diagnostics ++ [mkDiagnostic h], cursor := 1,
          padding := s.padding } (by simp)
      refine ⟨s2, ?_, ?_⟩
      · rw [parseRun, hstep]; exact hrun
      · rw [hlen2, List.countP_cons]
        simp [hd, hm]
        omega
    | none =>
      rw [hm] at hsafe
      have hsafe2 := (Bool.and_eq_true _ _).mp hsafe
      have hnot : (s.cursor % 2 == 1 && l.contains '~') = false := by
        have := hsafe2.1
        cases hx : (s.cursor % 2 == 1 && l.contains '~') with
        | false => rfl
        | true => rw [hx] at this; exact absurd this (by decide)
      have htail := hsafe2.2
      by_cases h0 : (s.cursor % 2 == 0 && !l.isEmpty) = true
      · have hstep : parseStep s l =
            .ok { s with padding := (l.takeWhile (fun c => c != ' ')).length,
                         cursor := s.cursor + 1 } := by
          rw [parseStep, hm, if_pos h0]
        obtain ⟨s2, hrun, hlen2⟩ := ih
          { s with padding := (l.takeWhile (fun c => c != ' ')).length,
                   cursor := s.cursor + 1 } htail hd
        refine ⟨s2, ?_, ?_⟩
        · rw [parseRun, hstep]; exact hrun
        · rw [hlen2, List.countP_cons]; simp [hm]
      · have hstep : parseStep s l = .ok { s with cursor := s.cursor + 1 } := by
          rw [parseStep, hm, if_neg h0, if_neg (by rw [hnot]; exact Bool.false_ne_true)]
        obtain ⟨s2, hrun, hlen2⟩ := ih { s with cursor := s.cursor + 1 } htail hd
        refine ⟨s2, ?_, ?_⟩
        · rw [parseRun, hstep]; exact hrun
        · rw [hlen2, List.countP_cons]; simp [hm]

/-- C6 amended: a line matching none of the parser's expected shapes is
ignored (only the line counter advances; no partial diagnostic is emitted),
and parsing terminates normally on every input in which no tilde-bearing line
occurs at odd cursor parity before the first header — the unamended
universal claim fails because such a line dereferences the missing last
diagnostic (see the counterexample). The run produces exactly one diagnostic
per header line. -/
theorem parse_safe_run (lines : List (List Char))
    (hsafe : noEarlyOddTilde 0 lines = true) :
    (∃ s2, parseRun ⟨[], 0, 0⟩ lines = .ok s2 ∧
      s2.diagnostics.length = lines.countP (fun l => (matchHeader l).isSome)) ∧
    (∀ (s : ParseState) (l : List Char), matchHeader l = none →
      ¬ (s.cursor % 2 = 0 ∧ l ≠ []) → ¬ (s.cursor % 2 = 1 ∧ l.contains '~' = true) →
      parseStep s l = .ok { s with cursor := s.cursor + 1 }) := by
  constructor
  · exact parseRun_safe_aux lines ⟨[], 0, 0⟩ hsafe rfl
  · intro s l hm hshape1 hshape2
    have h0 : (s.cursor % 2 == 0 && !l.isEmpty) = false := by
      by_cases hc : s.cursor % 2 = 0
      · have hl : l = [] := by
          by_contra hne
          exact hshape1 ⟨hc, hne⟩
        rw [hl]
        simp
      · have hb : (s.cursor % 2 == 0) = false := by
          cases hx : s.cursor % 2 == 0 with
          | false => rfl
          | true => exact absurd (of_decide_eq_true hx) hc
        rw [hb, Bool.false_and]
    have h1 : (s.cursor % 2 == 1 && l.contains '~') = false := by
      by_cases hc : s.cursor % 2 = 1
      · have hl : l.contains '~' = false := by
          cases hx : l.contains '~' with
          | false => rfl
          | true => exact absurd ⟨hc, hx⟩ hshape2
        rw [hl, Bool.and_false]
      · have hb : (s.cursor % 2 == 1) = false := by
          cases hx : s.cursor % 2 == 1 with
          | false => rfl
          | true => exact absurd (of_decide_eq_true hx) hc
        rw [hb, Bool.false_and]
    rw [parseStep, hm, if_neg (by rw [h0]; exact Bool.false_ne_true),
      if_neg (by rw [h1]; exact Bool.false_ne_true)]

/-- C6 witness: a single well-formed header line. -/
theorem parse_safe_run_witness :
    noEarlyOddTilde 0 ["a.ts:1:2 - error TS5: m".toList] = true ∧
    ((∃ s2, parseRun ⟨[], 0, 0⟩ ["a.ts:1:2 - error TS5: m".toList] = .ok s2 ∧
      s2.diagnostics.length =
        ["a.ts:1:2 - error TS5: m".toList].countP (fun l => (matchHeader l).isSome)) ∧
    (∀ (s : ParseState) (l : List Char), matchHeader l = none →
      ¬ (s.cursor % 2 = 0 ∧ l ≠ []) → ¬ (s.cursor % 2 = 1 ∧ l.contains '~' = true) →
      parseStep s l = .ok { s with cursor := s.cursor + 1 })) :=
  ⟨rfl, parse_safe_run ["a.ts:1:2 - error TS5: m".toList] rfl⟩

/-- Lines that are neither headers nor recognized tilde underlines: no header
match, and no tilde at odd cursor parity. `c` is the cursor at the head. -/
def postOk : Nat → List (List Char) → Bool
  | _, [] => true
  | c, l :: rest =>
      (matchHeader l).isNone && (c % 2 == 0 || !(l.contains '~')) &&
        postOk (c + 1) rest

theorem parseRun_append (ys : List (List Char)) : ∀ (xs : List (List Char)) (s : ParseState),
    parseRun s (xs ++ ys) = match parseRun s xs with
      | .ok s2 => parseRun s2 ys
      | .error e => .error e := by
  intro xs
  induction xs with
  | nil => intro s; rfl
  | cons x xt ih =>
    intro s
    rw [List.cons_append, parseRun, parseRun]
    cases parseStep s x with
    | ok s2 => exact ih s2
    | error e => rfl

/-- Lines accepted by `postOk` leave the diagnostics list untouched. -/
theorem parseRun_untouched : ∀ (post : List (List Char)) (s : ParseState),
    postOk s.cursor post = true →
    ∃ s2, parseRun s post = .ok s2 ∧ s2.diagnostics = s.diagnostics := by
  intro post
  induction post with
  | nil => intro s _; exact ⟨s, rfl, rfl⟩
  | cons l rest ih =>
    intro s hok
    rw [postOk] at hok
    have hok2 := (Bool.and_eq_true _ _).mp hok
    have hok3 := (Bool.and_eq_true _ _).mp hok2.1
    have hm : matchHeader l = none := Option.isNone_iff_eq_none.mp hok3.1
    have hrest := hok2.2
    have h1 : (s.cursor % 2 == 1 && l.contains '~') = false := by
      rcases (Bool.or_eq_true _ _).mp hok3.2 with heven | hnt
      · have hb : (s.cursor % 2 == 1) = false := by
          cases hx : s.cursor % 2 == 1 with
          | false => rfl
          | true =>
            have h1' := of_decide_eq_true hx
            have h0' := of_decide_eq_true heven
            omega
        rw [hb, Bool.false_and]
      · have hc : l.contains '~' = false := by
          cases hx : l.contains '~' with
          | false => rfl
          | true => rw [hx] at hnt; exact absurd hnt (by decide)
        rw [hc, Bool.and_false]
    by_cases h0 : (s.cursor % 2 == 0 && !l.isEmpty) = true
    · have hstep : parseStep s l =
          .ok { s with padding := (l.takeWhile (fun c => c != ' ')).length,
                       cursor := s.cursor + 1 } := by
        rw [parseStep, hm, if_pos h0]
      obtain ⟨s2, hrun, hdiag⟩ := ih
        { s with padding := (l.takeWhile (fun c => c != ' ')).length,
                 cursor := s.cursor + 1 } hrest
      exact ⟨s2, by rw [parseRun, hstep]; exact hrun, hdiag⟩
    · have hstep : parseStep s l = .ok { s with cursor := s.cursor + 1 } := by
        rw [parseStep, hm, if_neg h0, if_neg (by rw [h1]; exact Bool.false_ne_true)]
      obtain ⟨s2, hrun, hdiag⟩ := ih { s with cursor := s.cursor + 1 } hrest
      exact ⟨s2, by rw [parseRun, hstep]; exact hrun, hdiag⟩

/-- A diagnostic whose end position is still the unset sentinel `(0, 0)` is
always discarded by the remap: `lineOffsets[-1]` is `undefined`, the end
offset is `NaN`, the filtered backward query yields nothing for it, and
`!right` triggers the splice. -/
theorem remapOne_endzero (sf : SourceFileModel) (d : Diagnostic)
    (h : d.endPos = ⟨0, 0⟩) : remapOne sf d = none := by
  rw [remapOne]
  have hstop : createOffsetGetter sf.virtualText d.endPos.line d.endPos.column = none := by
    rw [h]
    show createOffsetGetter sf.virtualText 0 0 = none
    simp only [createOffsetGetter]
    rw [if_neg (by omega)]
  rw [hstop]
  have hright : firstSourceOffset sf none d.code = none := rfl
  rw [hright]
  rw [show jsTruthy none = false from rfl, Bool.and_false]
  rfl

/-- C7: a diagnostic header never followed by a recognized tilde underline
line keeps its end position at the unset sentinel `(0, 0)`; at remap time
such a diagnostic is treated as unmappable, discarded by the normal discard
path, and never appears among the rendered diagnostics. -/
theorem unset_end_sentinel_discard (pre post : List (List Char)) (h : List Char)
    (hd : HeaderMatch) (hmh : matchHeader h = some hd)
    (hpost : postOk 1 post = true)
    (s0 : ParseState) (hpre : parseRun ⟨[], 0, 0⟩ pre = .ok s0) :
    ∃ s2, parseRun ⟨[], 0, 0⟩ (pre ++ h :: post) = .ok s2 ∧
      s2.diagnostics = s0.diagnostics ++ [mkDiagnostic hd] ∧
      (mkDiagnostic hd).endPos = ⟨0, 0⟩ ∧
      (∀ sf : SourceFileModel, remapOne sf (mkDiagnostic hd) = none) ∧
      (∀ sf : SourceFileModel, checkGroup sf [mkDiagnostic hd] = []) := by
  have hstep : parseStep s0 h =
      .ok { diagnostics := s0.diagnostics ++ [mkDiagnostic hd], cursor := 1,
            padding := s0.padding } := by
    rw [parseStep, hmh]
  obtain ⟨s2, hrun, hdiag⟩ := parseRun_untouched post
    { diagnostics := s0.diagnostics ++ [mkDiagnostic hd], cursor := 1,
      padding := s0.padding } hpost
  refine ⟨s2, ?_, ?_, rfl, ?_, ?_⟩
  · rw [parseRun_append, hpre]
    show parseRun s0 (h :: post) = .ok s2
    rw [parseRun, hstep]
    exact hrun
  · exact hdiag
  · intro sf
    exact remapOne_endzero sf (mkDiagnostic hd) rfl
  · intro sf
    rw [checkGroup]
    rw [List.filterMap]
    rw [remapOne_endzero sf (mkDiagnostic hd) rfl]
    rfl

/-- C7 witness: a header line with nothing after it. -/
theorem unset_end_sentinel_discard_witness :
    (matchHeader "a.ts:1:2 - error TS5: m".toList =
        some ⟨"a.ts", 1, 2, 5, "m"⟩ ∧
      postOk 1 [] = true ∧
      parseRun ⟨[], 0, 0⟩ [] = .ok ⟨[], 0, 0⟩) ∧
    (∃ s2, parseRun ⟨[], 0, 0⟩ ([] ++ "a.ts:1:2 - error TS5: m".toList :: []) = .ok s2 ∧
      s2.diagnostics = (⟨[], 0, 0⟩ : ParseState).diagnostics ++
        [mkDiagnostic ⟨"a.ts", 1, 2, 5, "m"⟩] ∧
      (mkDiagnostic ⟨"a.ts", 1, 2, 5, "m"⟩).endPos = ⟨0, 0⟩ ∧
      (∀ sf : SourceFileModel, remapOne sf (mkDiagnostic ⟨"a.ts", 1, 2, 5, "m"⟩) = none) ∧
      (∀ sf : SourceFileModel, checkGroup sf [mkDiagnostic ⟨"a.ts", 1, 2, 5, "m"⟩] = [])) :=
  ⟨⟨rfl, rfl, rfl⟩,
    unset_end_sentinel_discard [] [] "a.ts:1:2 - error TS5: m".toList
      ⟨"a.ts", 1, 2, 5, "m"⟩ rfl rfl ⟨[], 0, 0⟩ rfl⟩

/- ### C2 amended: the discard condition of the remap loop -/

/-- C2 amended: a diagnostic is discarded iff, for its start corner or for
its end corner, the predicate-filtered backward query yields no offset or its
first yielded offset equals `0` (JavaScript falsiness of `!left || !right`);
whenever both first offsets exist and are nonzero, the diagnostic is
retained, remapped to those two source offsets, and rendered under the
original file's path. -/
theorem remap_retain_iff_truthy (sf : SourceFileModel) (d : Diagnostic) :
    (remapOne sf d = none ↔
      (firstSourceOffset sf
          (createOffsetGetter sf.virtualText d.start.line d.start.column) d.code = none ∨
       firstSourceOffset sf
          (createOffsetGetter sf.virtualText d.start.line d.start.column) d.code = some 0) ∨
      (firstSourceOffset sf
          (createOffsetGetter sf.virtualText d.endPos.line d.endPos.column) d.code = none ∨
       firstSourceOffset sf
          (createOffsetGetter sf.virtualText d.endPos.line d.endPos.column) d.code = some 0)) ∧
    (∀ l r : Int,
      firstSourceOffset sf
        (createOffsetGetter sf.virtualText d.start.line d.start.column) d.code = some l →
      l ≠ 0 →
      firstSourceOffset sf
        (createOffsetGetter sf.virtualText d.endPos.line d.endPos.column) d.code = some r →
      r ≠ 0 →
      remapOne sf d = some { d with
        start := createLineAndColumnGetter sf.sourceText l,
        endPos := createLineAndColumnGetter sf.sourceText r } ∧
      checkGroup sf [d] = [{ d with
        path := sf.sourcePath,
        start := createLineAndColumnGetter sf.sourceText l,
        endPos := createLineAndColumnGetter sf.sourceText r }]) := by
  have hro : remapOne sf d =
      if jsTruthy (firstSourceOffset sf
            (createOffsetGetter sf.virtualText d.start.line d.start.column) d.code) &&
         jsTruthy (firstSourceOffset sf
            (createOffsetGetter sf.virtualText d.endPos.line d.endPos.column) d.code) then
        some { d with
          start := createLineAndColumnGetter sf.sourceText
            ((firstSourceOffset sf
              (createOffsetGetter sf.virtualText d.start.line d.start.column) d.code).getD 0),
          endPos := createLineAndColumnGetter sf.sourceText
            ((firstSourceOffset sf
              (createOffsetGetter sf.virtualText d.endPos.line d.endPos.column) d.code).getD 0) }
      else none := rfl
  constructor
  · rw [hro]
    cases hL : firstSourceOffset sf
        (createOffsetGetter sf.virtualText d.start.line d.start.column) d.code with
    | none => simp [jsTruthy]
    | some lv =>
      cases hR : firstSourceOffset sf
          (createOffsetGetter sf.virtualText d.endPos.line d.endPos.column) d.code with
      | none => simp [jsTruthy]
      | some rv =>
        by_cases hl0 : lv = 0
        · subst hl0; simp [jsTruthy]
        · by_cases hr0 : rv = 0
          · subst hr0; simp [jsTruthy, hl0]
          · simp [jsTruthy, hl0, hr0]
  · intro l r h1 h2 h3 h4
    have hretain : remapOne sf d = some { d with
        start := createLineAndColumnGetter sf.sourceText l,
        endPos := createLineAndColumnGetter sf.sourceText r } := by
      rw [hro, h1, h3]
      have hcond : (jsTruthy (some l) && jsTruthy (some r)) = true := by
        simp [jsTruthy, h2, h4]
      rw [hcond, if_pos rfl]
      rfl
    refine ⟨hretain, ?_⟩
    rw [checkGroup, List.filterMap]
    rw [hretain]
    rfl

/-- A virtual file whose single mapping entry starts at source offset `5`. -/
def sfFive : SourceFileModel :=
  { sourcePath := "/src/w.vue", sourceText := "abcdefgh", virtualText := "ab",
    mappings := [⟨[5], [0], [1], featVerificationOn⟩] }

/-- A diagnostic that remaps successfully through `sfFive`. -/
def diagFive : Diagnostic :=
  { path := "/cache/w.vue.ts", start := ⟨1, 1⟩, endPos := ⟨1, 2⟩, code := 1,
    message := "m" }

/-- C2 witness: both queries yield nonzero first offsets `5` and `6`; the
diagnostic is retained, remapped and re-homed. -/
theorem remap_retain_iff_truthy_witness :
    (firstSourceOffset sfFive
        (createOffsetGetter sfFive.virtualText diagFive.start.line diagFive.start.column)
        diagFive.code = some 5 ∧ (5 : Int) ≠ 0 ∧
      firstSourceOffset sfFive
        (createOffsetGetter sfFive.virtualText diagFive.endPos.line diagFive.endPos.column)
        diagFive.code = some 6 ∧ (6 : Int) ≠ 0) ∧
    remapOne sfFive diagFive = some { diagFive with
      start := createLineAndColumnGetter sfFive.sourceText 5,
      endPos := createLineAndColumnGetter sfFive.sourceText 6 } ∧
    checkGroup sfFive [diagFive] = [{ diagFive with
      path := sfFive.sourcePath,
      start := createLineAndColumnGetter sfFive.sourceText 5,
      endPos := createLineAndColumnGetter sfFive.sourceText 6 }] :=
  ⟨⟨rfl, by decide, rfl, by decide⟩,
    (remap_retain_iff_truthy sfFive diagFive).2 5 6 rfl (by decide) rfl (by decide)⟩

/- ### C4/C9/C10: the compaction pass of `createMappings` -/

/-- The effect of one second-pass iteration on the output list alone: the
`tokens` record is replaced by an index search over the list built so far. -/
def absorbStep (acc : List Mapping) (m : Mapping) : List Mapping :=
  match m.data.combineToken with
  | some token =>
    if acc.any (hasTok token) then
      modifyIdx acc (acc.findIdx (hasTok token)) (fun target => appendTo target m)
    else acc ++ [m]
  | none => acc ++ [m]

def absorb (acc : List Mapping) (oms : List Mapping) : List Mapping :=
  oms.foldl absorbStep acc

/-- Merging the later same-token occurrences into the representative. -/
def mergeGroupAfter (a : Mapping) (gs : List Mapping) : Mapping :=
  gs.foldl appendTo a

theorem appendTo_data (a m : Mapping) : (appendTo a m).data = a.data := rfl

theorem hasTok_appendTo (t : Nat) (a m : Mapping) :
    hasTok t (appendTo a m) = hasTok t a := rfl

theorem noTok_appendTo (a m : Mapping) : noTok (appendTo a m) = noTok a := rfl

theorem hasTok_iff (t : Nat) (m : Mapping) :
    hasTok t m = true ↔ m.data.combineToken = some t := by
  simp [hasTok]

theorem hasTok_of_none (t : Nat) (m : Mapping) (h : m.data.combineToken = none) :
    hasTok t m = false := by
  simp [hasTok, h]

theorem noTok_of_some (t : Nat) (m : Mapping) (h : m.data.combineToken = some t) :
    noTok m = false := by
  simp [noTok, h]

theorem length_modifyIdx (f : α → α) : ∀ (l : List α) (i : Nat),
    (modifyIdx l i f).length = l.length := by
  intro l
  induction l with
  | nil => intro i; rfl
  | cons a as ih =>
    intro i
    cases i with
    | zero => rfl
    | succ n => simp [modifyIdx, ih n]

theorem any_modifyIdx (p : α → Bool) (f : α → α) (hp : ∀ x, p (f x) = p x) :
    ∀ (l : List α) (i : Nat), (modifyIdx l i f).any p = l.any p := by
  intro l
  induction l with
  | nil => intro i; rfl
  | cons a as ih =>
    intro i
    cases i with
    | zero => simp [modifyIdx, hp]
    | succ n => simp [modifyIdx, ih n]

theorem findIdx_modifyIdx (p : α → Bool) (f : α → α) (hp : ∀ x, p (f x) = p x) :
    ∀ (l : List α) (i : Nat), (modifyIdx l i f).findIdx p = l.findIdx p := by
  intro l
  induction l with
  | nil => intro i; rfl
  | cons a as ih =>
    intro i
    cases i with
    | zero => simp [modifyIdx, List.findIdx_cons, hp]
    | succ n => simp [modifyIdx, List.findIdx_cons, ih n]

theorem countP_modifyIdx (p : α → Bool) (f : α → α) (hp : ∀ x, p (f x) = p x) :
    ∀ (l : List α) (i : Nat), (modifyIdx l i f).countP p = l.countP p := by
  intro l
  induction l with
  | nil => intro i; rfl
  | cons a as ih =>
    intro i
    cases i with
    | zero => simp [modifyIdx, List.countP_cons, hp]
    | succ n => simp [modifyIdx, List.countP_cons, ih n]

theorem filter_modifyIdx_of_get (p : α → Bool) (f : α → α) :
    ∀ (l : List α) (i : Nat) (a : α), l.get? i = some a → p a = false → p (f a) = false →
    (modifyIdx l i f).filter p = l.filter p := by
  intro l
  induction l with
  | nil => intro i a h _ _; simp at h
  | cons x xs ih =>
    intro i a h ha hfa
    cases i with
    | zero =>
      have hx : x = a := by simpa using h
      subst hx
      simp [modifyIdx, List.filter_cons, ha, hfa]
    | succ n =>
      have h2 : xs.get? n = some a := by simpa using h
      simp only [modifyIdx, List.filter_cons]
      rw [ih n a h2 ha hfa]

theorem filter_modifyIdx_at_findIdx (p : α → Bool) (f : α → α)
    (hp : ∀ x, p (f x) = p x) :
    ∀ (l : List α) (a : α), l.countP p ≤ 1 → l.filter p = [a] →
    (modifyIdx l (l.findIdx p) f).filter p = [f a] := by
  intro l
  induction l with
  | nil => intro a _ h; simp at h
  | cons x xs ih =>
    intro a hc hf
    by_cases hx : p x = true
    · have hxa : x = a ∧ xs.filter p = [] := by
        rw [List.filter_cons, if_pos hx] at hf
        exact ⟨List.head_eq_of_cons_eq hf, List.tail_eq_of_cons_eq hf⟩
      obtain ⟨hxa1, hxs⟩ := hxa
      subst hxa1
      rw [List.findIdx_cons, hx]
      show (f x :: xs).filter p = [f x]
      rw [List.filter_cons, if_pos (by rw [hp, hx])]
      rw [hxs]
    · have hxb : p x = false := by
        cases hy : p x with
        | false => rfl
        | true => exact absurd hy hx
      rw [List.filter_cons, if_neg (by rw [hxb]; exact Bool.false_ne_true)] at hf
      have hc2 : xs.countP p ≤ 1 := by
        rw [List.countP_cons, hxb] at hc
        simpa using hc
      rw [List.findIdx_cons, hxb]
      simp only [cond_false]
      show (x :: modifyIdx xs (xs.findIdx p) f).filter p = [f a]
      rw [List.filter_cons, if_neg (by rw [hxb]; exact Bool.false_ne_true)]
      exact ih a hc2 hf

theorem findIdx_append_of_any (p : α → Bool) :
    ∀ (l₁ l₂ : List α), l₁.any p = true → (l₁ ++ l₂).findIdx p = l₁.findIdx p := by
  intro l₁
  induction l₁ with
  | nil => intro l₂ h; simp at h
  | cons x xs ih =>
    intro l₂ h
    by_cases hx : p x = true
    · simp [List.findIdx_cons, hx]
    · have hxb : p x = false := by
        cases hy : p x with
        | false => rfl
        | true => exact absurd hy hx
      rw [List.any_cons, hxb, Bool.false_or] at h
      simp [List.findIdx_cons, hxb, ih l₂ h]

theorem findIdx_append_of_not (p : α → Bool) :
    ∀ (l₁ l₂ : List α), l₁.any p = false →
    (l₁ ++ l₂).findIdx p = l₁.length + l₂.findIdx p := by
  intro l₁
  induction l₁ with
  | nil => intro l₂ h; simp
  | cons x xs ih =>
    intro l₂ h
    rw [List.any_cons] at h
    have hx : p x = false := by
      cases hy : p x with
      | false => rfl
      | true => rw [hy] at h; exact absurd h (by simp)
    have hxs : xs.any p = false := by
      rw [hx] at h; simpa using h
    simp [List.findIdx_cons, hx, ih l₂ hxs]
    omega

theorem get?_findIdx_of_any (p : α → Bool) :
    ∀ (l : List α), l.any p = true →
    ∃ a, l.get? (l.findIdx p) = some a ∧ p a = true := by
  intro l
  induction l with
  | nil => intro h; simp at h
  | cons x xs ih =>
    intro h
    by_cases hx : p x = true
    · exact ⟨x, by simp [List.findIdx_cons, hx], hx⟩
    · have hxb : p x = false := by
        cases hy : p x with
        | false => rfl
        | true => exact absurd hy hx
      rw [List.any_cons, hxb, Bool.false_or] at h
      obtain ⟨a, hget, hpa⟩ := ih h
      refine ⟨a, ?_, hpa⟩
      simp only [List.findIdx_cons, hxb, cond_false]
      simpa using hget

theorem lookup_append_some (a : Nat) (b : Nat) :
    ∀ (l₁ l₂ : List (Nat × Nat)), List.lookup a l₁ = some b →
    List.lookup a (l₁ ++ l₂) = some b := by
  intro l₁
  induction l₁ with
  | nil => intro l₂ h; simp [List.lookup] at h
  | cons kv es ih =>
    intro l₂ h
    obtain ⟨k, v⟩ := kv
    rw [List.cons_append]
    rw [List.lookup] at h ⊢
    cases hk : (a == k) with
    | true => rw [hk] at h; simpa using h
    | false =>
      rw [hk] at h
      simpa using ih l₂ h

theorem lookup_append_none (a : Nat) :
    ∀ (l₁ l₂ : List (Nat × Nat)), List.lookup a l₁ = none →
    List.lookup a (l₁ ++ l₂) = List.lookup a l₂ := by
  intro l₁
  induction l₁ with
  | nil => intro l₂ _; rfl
  | cons kv es ih =>
    intro l₂ h
    obtain ⟨k, v⟩ := kv
    rw [List.cons_append]
    rw [List.lookup] at h ⊢
    cases hk : (a == k) with
    | true => rw [hk] at h; simp at h
    | false =>
      rw [hk] at h
      exact ih l₂ h

/-- Invariant relating the `tokens` record to the output list: it caches, for
every token present in the list built so far, the index of that token's
(unique) representative entry. -/
def TokInv (acc : List Mapping) (toks : List (Nat × Nat)) : Prop :=
  ∀ t, List.lookup t toks =
    if acc.any (hasTok t) then some (acc.findIdx (hasTok t)) else none

theorem combineStep_eq (acc : List Mapping) (toks : List (Nat × Nat)) (m : Mapping)
    (hinv : TokInv acc toks) :
    (combineStep (acc, toks) m).1 = absorbStep acc m ∧
    TokInv (combineStep (acc, toks) m).1 (combineStep (acc, toks) m).2 := by
  cases htok : m.data.combineToken with
  | none =>
    have hstep : combineStep (acc, toks) m = (acc ++ [m], toks) := by
      rw [combineStep, htok]
    have habs : absorbStep acc m = acc ++ [m] := by
      rw [absorbStep, htok]
    rw [hstep, habs]
    refine ⟨rfl, fun t => ?_⟩
    have hm : hasTok t m = false := hasTok_of_none t m htok
    have hany : (acc ++ [m]).any (hasTok t) = acc.any (hasTok t) := by
      rw [List.any_append]
      simp [hm]
    rw [hany]
    cases ha : acc.any (hasTok t) with
    | true =>
      rw [hinv t, ha, if_pos rfl, if_pos rfl, findIdx_append_of_any _ _ _ ha]
    | false =>
      rw [hinv t, ha]
      simp
  | some t0 =>
    cases hlk : List.lookup t0 toks with
    | some i =>
      have hany0 : acc.any (hasTok t0) = true ∧ i = acc.findIdx (hasTok t0) := by
        have := hinv t0
        rw [hlk] at this
        cases ha : acc.any (hasTok t0) with
        | true => rw [ha, if_pos rfl] at this; exact ⟨rfl, by injection this⟩
        | false => rw [ha] at this; simp at this
      have hstep : combineStep (acc, toks) m =
          (modifyIdx acc i (fun target => appendTo target m), toks) := by
        rw [combineStep, htok]
        show (match List.lookup t0 toks with
          | some i => (modifyIdx acc i (fun target => appendTo target m), toks)
          | none => (acc ++ [m], toks ++ [(t0, acc.length)])) =
          (modifyIdx acc i (fun target => appendTo target m), toks)
        rw [hlk]
      have habs : absorbStep acc m =
          modifyIdx acc i (fun target => appendTo target m) := by
        simp only [absorbStep, htok]
        rw [if_pos hany0.1, ← hany0.2]
      rw [hstep, habs]
      refine ⟨rfl, fun t => ?_⟩
      have hp : ∀ x, hasTok t (appendTo x m) = hasTok t x := fun x => rfl
      rw [any_modifyIdx _ _ hp, findIdx_modifyIdx _ _ hp]
      exact hinv t
    | none =>
      have hany0 : acc.any (hasTok t0) = false := by
        have := hinv t0
        rw [hlk] at this
        cases ha : acc.any (hasTok t0) with
        | true => rw [ha, if_pos rfl] at this; simp at this
        | false => rfl
      have hstep : combineStep (acc, toks) m =
          (acc ++ [m], toks ++ [(t0, acc.length)]) := by
        rw [combineStep, htok]
        show (match List.lookup t0 toks with
          | some i => (modifyIdx acc i (fun target => appendTo target m), toks)
          | none => (acc ++ [m], toks ++ [(t0, acc.length)])) =
          (acc ++ [m], toks ++ [(t0, acc.length)])
        rw [hlk]
      have habs : absorbStep acc m = acc ++ [m] := by
        simp only [absorbStep, htok]
        rw [if_neg (by rw [hany0]; exact Bool.false_ne_true)]
      rw [hstep, habs]
      refine ⟨rfl, fun t => ?_⟩
      by_cases ht : t = t0
      · subst ht
        have hm : hasTok t m = true := (hasTok_iff t m).mpr htok
        rw [lookup_append_none t toks _ hlk]
        have hl2 : List.lookup t [(t, acc.length)] = some acc.length := by
          simp [List.lookup]
        rw [hl2]
        have hany2 : (acc ++ [m]).any (hasTok t) = true := by
          rw [List.any_append]
          simp [hm]
        rw [hany2, if_pos rfl, findIdx_append_of_not _ _ _ hany0]
        rw [List.findIdx_cons, hm]
        rfl
      · have hm : hasTok t m = false := by
          simp only [hasTok, htok]
          simp only [beq_eq_false_iff_ne, ne_eq, Option.some.injEq]
          exact fun h => ht h.symm
        have hany2 : (acc ++ [m]).any (hasTok t) = acc.any (hasTok t) := by
          rw [List.any_append]
          simp [hm]
        have hl2 : List.lookup t (toks ++ [(t0, acc.length)]) = List.lookup t toks := by
          cases hl : List.lookup t toks with
          | some b => exact lookup_append_some t b toks _ hl
          | none =>
            rw [lookup_append_none t toks _ hl]
            have : (t == t0) = false := by
              cases hx : t == t0 with
              | false => rfl
              | true => exact absurd (of_decide_eq_true hx) ht
            simp [List.lookup, this]
        rw [hl2, hany2]
        cases ha : acc.any (hasTok t) with
        | true =>
          rw [hinv t, ha, if_pos rfl, if_pos rfl, findIdx_append_of_any _ _ _ ha]
        | false =>
          rw [hinv t, ha]
          simp

theorem foldl_combineStep_eq_absorb :
    ∀ (oms : List Mapping) (acc : List Mapping) (toks : List (Nat × Nat)),
    TokInv acc toks → (oms.foldl combineStep (acc, toks)).1 = absorb acc oms := by
  intro oms
  induction oms with
  | nil => intro acc toks _; rfl
  | cons m rest ih =>
    intro acc toks hinv
    obtain ⟨heq, hinv2⟩ := combineStep_eq acc toks m hinv
    rw [List.foldl_cons]
    rw [absorb, List.foldl_cons, ← heq]
    exact ih (combineStep (acc, toks) m).1 (combineStep (acc, toks) m).2 hinv2

theorem compactMappings_eq_absorb (oms : List Mapping) :
    compactMappings oms = absorb [] oms := by
  rw [compactMappings]
  apply foldl_combineStep_eq_absorb
  intro t
  simp [List.lookup]

/-- No two entries of the list carry the same combine token. -/
def NoTokDup (acc : List Mapping) : Prop :=
  ∀ t, acc.countP (hasTok t) ≤ 1

theorem any_absorbStep (acc : List Mapping) (m : Mapping) (t : Nat) :
    (absorbStep acc m).any (hasTok t) = (acc.any (hasTok t) || hasTok t m) := by
  cases htok : m.data.combineToken with
  | none =>
    simp only [absorbStep, htok]
    have hm : hasTok t m = false := hasTok_of_none t m htok
    rw [List.any_append]
    simp [hm]
  | some t0 =>
    simp only [absorbStep, htok]
    by_cases hany : acc.any (hasTok t0) = true
    · rw [if_pos hany,
        any_modifyIdx (hasTok t) (fun target => appendTo target m) (fun x => rfl)]
      by_cases ht : t = t0
      · subst ht
        rw [hany, (hasTok_iff t m).mpr htok]
        rfl
      · have hm : hasTok t m = false := by
          simp only [hasTok, htok, beq_eq_false_iff_ne, ne_eq, Option.some.injEq]
          exact fun h => ht h.symm
        rw [hm, Bool.or_false]
    · rw [if_neg hany, List.any_append]
      simp

theorem any_absorb : ∀ (oms acc : List Mapping) (t : Nat),
    (absorb acc oms).any (hasTok t) = (acc.any (hasTok t) || oms.any (hasTok t)) := by
  intro oms
  induction oms with
  | nil => intro acc t; simp [absorb]
  | cons m rest ih =>
    intro acc t
    show (absorb (absorbStep acc m) rest).any (hasTok t) = _
    rw [ih (absorbStep acc m) t]
    rw [any_absorbStep, List.any_cons]
    cases acc.any (hasTok t) <;> cases hasTok t m <;> cases rest.any (hasTok t) <;> rfl

theorem findIdx_absorbStep_of_any (acc : List Mapping) (m : Mapping) (t : Nat)
    (h : acc.any (hasTok t) = true) :
    (absorbStep acc m).findIdx (hasTok t) = acc.findIdx (hasTok t) := by
  cases htok : m.data.combineToken with
  | none =>
    simp only [absorbStep, htok]
    exact findIdx_append_of_any _ _ _ h
  | some t0 =>
    simp only [absorbStep, htok]
    by_cases hany : acc.any (hasTok t0) = true
    · rw [if_pos hany]
      exact findIdx_modifyIdx (hasTok t) (fun target => appendTo target m) (fun x => rfl) acc _
    · rw [if_neg hany]
      exact findIdx_append_of_any _ _ _ h

theorem findIdx_absorb_of_any : ∀ (oms acc : List Mapping) (t : Nat),
    acc.any (hasTok t) = true →
    (absorb acc oms).findIdx (hasTok t) = acc.findIdx (hasTok t) := by
  intro oms
  induction oms with
  | nil => intro acc t _; rfl
  | cons m rest ih =>
    intro acc t h
    show (absorb (absorbStep acc m) rest).findIdx (hasTok t) = _
    have h2 : (absorbStep acc m).any (hasTok t) = true := by
      rw [any_absorbStep, h, Bool.true_or]
    rw [ih (absorbStep acc m) t h2, findIdx_absorbStep_of_any acc m t h]

theorem noTokDup_absorbStep (acc : List Mapping) (m : Mapping)
    (h : NoTokDup acc) : NoTokDup (absorbStep acc m) := by
  intro t
  cases htok : m.data.combineToken with
  | none =>
    simp only [absorbStep, htok]
    rw [List.countP_append]
    have : List.countP (hasTok t) [m] = 0 := by
      simp [List.countP_cons, hasTok_of_none t m htok]
    rw [this]
    simpa using h t
  | some t0 =>
    simp only [absorbStep, htok]
    by_cases hany : acc.any (hasTok t0) = true
    · rw [if_pos hany,
        countP_modifyIdx (hasTok t) (fun target => appendTo target m) (fun x => rfl)]
      exact h t
    · rw [if_neg hany, List.countP_append]
      by_cases ht : t = t0
      · subst ht
        have hzero : acc.countP (hasTok t) = 0 := by
          rw [List.countP_eq_zero]
          intro a ha hpa
          exact hany (List.any_eq_true.mpr ⟨a, ha, hpa⟩)
        have hone : List.countP (hasTok t) [m] ≤ 1 := by
          rw [List.countP_cons]
          simp only [List.countP_nil]
          split <;> omega
        omega
      · have hm : hasTok t m = false := by
          simp only [hasTok, htok, beq_eq_false_iff_ne, ne_eq, Option.some.injEq]
          exact fun hx => ht hx.symm
        have : List.countP (hasTok t) [m] = 0 := by
          simp [List.countP_cons, hm]
        rw [this]
        simpa using h t

theorem noTokDup_absorb : ∀ (oms acc : List Mapping),
    NoTokDup acc → NoTokDup (absorb acc oms) := by
  intro oms
  induction oms with
  | nil => intro acc h; exact h
  | cons m rest ih =>
    intro acc h
    exact ih (absorbStep acc m) (noTokDup_absorbStep acc m h)

theorem filter_noTok_absorbStep (acc : List Mapping) (m : Mapping) :
    (absorbStep acc m).filter noTok = acc.filter noTok ++ [m].filter noTok := by
  cases htok : m.data.combineToken with
  | none =>
    simp only [absorbStep, htok]
    exact List.filter_append _ _
  | some t0 =>
    simp only [absorbStep, htok]
    have hmf : [m].filter noTok = [] := by
      simp [List.filter_cons, noTok_of_some t0 m htok]
    by_cases hany : acc.any (hasTok t0) = true
    · rw [if_pos hany, hmf, List.append_nil]
      obtain ⟨a, hget, hpa⟩ := get?_findIdx_of_any (hasTok t0) acc hany
      have hna : noTok a = false := by
        have := (hasTok_iff t0 a).mp hpa
        exact noTok_of_some t0 a this
      exact filter_modifyIdx_of_get noTok _ acc _ a hget hna hna
    · rw [if_neg hany, List.filter_append, hmf]

theorem filter_noTok_absorb : ∀ (oms acc : List Mapping),
    (absorb acc oms).filter noTok = acc.filter noTok ++ oms.filter noTok := by
  intro oms
  induction oms with
  | nil => intro acc; simp [absorb]
  | cons m rest ih =>
    intro acc
    show (absorb (absorbStep acc m) rest).filter noTok = _
    rw [ih (absorbStep acc m), filter_noTok_absorbStep]
    by_cases hm : noTok m = true
    · simp [List.filter_cons, hm, List.append_assoc]
    · have hm2 : noTok m = false := by
        cases hx : noTok m with
        | false => rfl
        | true => exact absurd hx hm
      simp [List.filter_cons, hm2, List.append_assoc]

/-- A step on a fragment not carrying token `t` leaves the token-`t` filter of
the output unchanged. -/
theorem filter_absorbStep_other (acc : List Mapping) (m : Mapping) (t : Nat)
    (hmf : hasTok t m = false) :
    (absorbStep acc m).filter (hasTok t) = acc.filter (hasTok t) := by
  cases htok : m.data.combineToken with
  | none =>
    simp only [absorbStep, htok]
    rw [List.filter_append]
    simp [List.filter_cons, hmf]
  | some t0 =>
    simp only [absorbStep, htok]
    by_cases hany : acc.any (hasTok t0) = true
    · rw [if_pos hany]
      obtain ⟨b, hget, hpb⟩ := get?_findIdx_of_any (hasTok t0) acc hany
      have ht0 : ¬ t0 = t := by
        intro he
        subst he
        have h1 := (hasTok_iff t0 m).mpr htok
        rw [h1] at hmf
        exact absurd hmf (by decide)
      have hb := (hasTok_iff t0 b).mp hpb
      have hbf : hasTok t b = false := by
        simp only [hasTok, hb, beq_eq_false_iff_ne, ne_eq, Option.some.injEq]
        exact ht0
      have hbf2 : hasTok t (appendTo b m) = false := by
        rw [hasTok_appendTo]
        exact hbf
      exact filter_modifyIdx_of_get (hasTok t) (fun target => appendTo target m)
        acc _ b hget hbf hbf2
    · rw [if_neg hany, List.filter_append]
      simp [List.filter_cons, hmf]

/-- If the list built so far holds a unique representative `a` for token `t`,
absorbing the remaining fragments merges the whole `t`-group onto `a`. -/
theorem filter_hasTok_absorb_of_mem :
    ∀ (oms acc : List Mapping) (t : Nat) (a : Mapping), NoTokDup acc →
    acc.filter (hasTok t) = [a] →
    (absorb acc oms).filter (hasTok t) =
      [mergeGroupAfter a (oms.filter (hasTok t))] := by
  intro oms
  induction oms with
  | nil =>
    intro acc t a _ hf
    show acc.filter (hasTok t) = _
    rw [hf]
    rfl
  | cons m rest ih =>
    intro acc t a hdup hf
    show (absorb (absorbStep acc m) rest).filter (hasTok t) = _
    by_cases hm : hasTok t m = true
    · have htok : m.data.combineToken = some t := (hasTok_iff t m).mp hm
      have hany : acc.any (hasTok t) = true := by
        apply List.any_eq_true.mpr
        have ha : a ∈ acc.filter (hasTok t) := by
          rw [hf]
          exact List.mem_singleton_self a
        exact ⟨a, (List.mem_filter.mp ha).1, (List.mem_filter.mp ha).2⟩
      have hstep : absorbStep acc m = modifyIdx acc (acc.findIdx (hasTok t))
          (fun target => appendTo target m) := by
        simp only [absorbStep, htok]
        rw [if_pos hany]
      have hfilter2 : (absorbStep acc m).filter (hasTok t) = [appendTo a m] := by
        rw [hstep]
        exact filter_modifyIdx_at_findIdx (hasTok t) (fun target => appendTo target m)
          (fun x => rfl) acc a (hdup t) hf
      rw [ih (absorbStep acc m) t (appendTo a m) (noTokDup_absorbStep acc m hdup) hfilter2]
      have hgoal : (m :: rest).filter (hasTok t) = m :: rest.filter (hasTok t) := by
        rw [List.filter_cons, if_pos hm]
      rw [hgoal]
      rfl
    · have hmf : hasTok t m = false := by
        cases hx : hasTok t m with
        | false => rfl
        | true => exact absurd hx hm
      have hfilter2 : (absorbStep acc m).filter (hasTok t) = [a] := by
        rw [filter_absorbStep_other acc m t hmf]
        exact hf
      rw [ih (absorbStep acc m) t a (noTokDup_absorbStep acc m hdup) hfilter2]
      have hgoal : (m :: rest).filter (hasTok t) = rest.filter (hasTok t) := by
        rw [List.filter_cons, if_neg (by rw [hmf]; exact Bool.false_ne_true)]
      rw [hgoal]

/-- Starting with no token-`t` entry, the output's token-`t` filter is the
merge of the group onto its first occurrence (or empty). -/
theorem filter_hasTok_absorb_of_empty :
    ∀ (oms acc : List Mapping) (t : Nat), NoTokDup acc →
    acc.filter (hasTok t) = [] →
    (absorb acc oms).filter (hasTok t) =
      (match oms.filter (hasTok t) with
       | [] => []
       | g :: gs => [mergeGroupAfter g gs]) := by
  intro oms
  induction oms with
  | nil =>
    intro acc t _ hf
    show acc.filter (hasTok t) = _
    rw [hf]
    rfl
  | cons m rest ih =>
    intro acc t hdup hf
    show (absorb (absorbStep acc m) rest).filter (hasTok t) = _
    by_cases hm : hasTok t m = true
    · have htok : m.data.combineToken = some t := (hasTok_iff t m).mp hm
      have hany : acc.any (hasTok t) = false := by
        cases ha : acc.any (hasTok t) with
        | false => rfl
        | true =>
          obtain ⟨x, hx, hpx⟩ := List.any_eq_true.mp ha
          have hmem : x ∈ acc.filter (hasTok t) := List.mem_filter.mpr ⟨hx, hpx⟩
          rw [hf] at hmem
          simp at hmem
      have hstep : absorbStep acc m = acc ++ [m] := by
        simp only [absorbStep, htok]
        rw [if_neg (by rw [hany]; exact Bool.false_ne_true)]
      have hfilter2 : (absorbStep acc m).filter (hasTok t) = [m] := by
        rw [hstep, List.filter_append, hf]
        simp [List.filter_cons, hm]
      rw [filter_hasTok_absorb_of_mem rest (absorbStep acc m) t m
        (noTokDup_absorbStep acc m hdup) hfilter2]
      have hgoal : (m :: rest).filter (hasTok t) = m :: rest.filter (hasTok t) := by
        rw [List.filter_cons, if_pos hm]
      rw [hgoal]
    · have hmf : hasTok t m = false := by
        cases hx : hasTok t m with
        | false => rfl
        | true => exact absurd hx hm
      have hfilter2 : (absorbStep acc m).filter (hasTok t) = [] := by
        rw [filter_absorbStep_other acc m t hmf]
        exact hf
      rw [ih (absorbStep acc m) t (noTokDup_absorbStep acc m hdup) hfilter2]
      have hgoal : (m :: rest).filter (hasTok t) = rest.filter (hasTok t) := by
        rw [List.filter_cons, if_neg (by rw [hmf]; exact Bool.false_ne_true)]
      rw [hgoal]

theorem mergeGroupAfter_fields : ∀ (gs : List Mapping) (a : Mapping),
    (mergeGroupAfter a gs).sourceOffsets =
      a.sourceOffsets ++ (gs.map Mapping.sourceOffsets).flatten ∧
    (mergeGroupAfter a gs).generatedOffsets =
      a.generatedOffsets ++ (gs.map Mapping.generatedOffsets).flatten ∧
    (mergeGroupAfter a gs).lengths =
      a.lengths ++ (gs.map Mapping.lengths).flatten ∧
    (mergeGroupAfter a gs).data = a.data := by
  intro gs
  induction gs with
  | nil => intro a; simp [mergeGroupAfter]
  | cons g gs ih =>
    intro a
    have h := ih (appendTo a g)
    refine ⟨?_, ?_, ?_, ?_⟩
    · show (mergeGroupAfter (appendTo a g) gs).sourceOffsets = _
      rw [h.1, List.map_cons, List.flatten_cons]
      show (a.sourceOffsets ++ g.sourceOffsets) ++ _ = _
      rw [List.append_assoc]
    · show (mergeGroupAfter (appendTo a g) gs).generatedOffsets = _
      rw [h.2.1, List.map_cons, List.flatten_cons]
      show (a.generatedOffsets ++ g.generatedOffsets) ++ _ = _
      rw [List.append_assoc]
    · show (mergeGroupAfter (appendTo a g) gs).lengths = _
      rw [h.2.2.1, List.map_cons, List.flatten_cons]
      show (a.lengths ++ g.lengths) ++ _ = _
      rw [List.append_assoc]
    · show (mergeGroupAfter (appendTo a g) gs).data = _
      rw [h.2.2.2]
      rfl

theorem originalMappingsAux_shape : ∀ (codes : List Code) (len : Nat) (m : Mapping),
    m ∈ originalMappingsAux codes len →
    m.sourceOffsets.length = 1 ∧ m.generatedOffsets.length = 1 ∧
      m.lengths.length = 1 := by
  intro codes
  induction codes with
  | nil => intro len m h; simp [originalMappingsAux] at h
  | cons c rest ih =>
    intro len m h
    cases c with
    | text s =>
      simp only [originalMappingsAux] at h
      exact ih _ m h
    | mapped tx src off d =>
      simp only [originalMappingsAux] at h
      rcases List.mem_cons.mp h with he | hrest
      · subst he; exact ⟨rfl, rfl, rfl⟩
      · exact ih _ m hrest

theorem originalMappingsAux_gen_bound : ∀ (codes : List Code) (len v : Nat),
    v ∈ ((originalMappingsAux codes len).map Mapping.generatedOffsets).flatten →
    len ≤ v := by
  intro codes
  induction codes with
  | nil => intro len v h; simp [originalMappingsAux] at h
  | cons c rest ih =>
    intro len v h
    cases c with
    | text s =>
      simp only [originalMappingsAux] at h
      have := ih (len + s.length) v h
      omega
    | mapped tx src off d =>
      simp only [originalMappingsAux, List.map_cons, List.flatten_cons] at h
      rcases List.mem_append.mp h with h1 | h2
      · simp at h1
        omega
      · have := ih (len + tx.length) v h2
        omega

theorem originalMappingsAux_gen_sorted : ∀ (codes : List Code) (len : Nat),
    List.Pairwise (· ≤ ·)
      (((originalMappingsAux codes len).map Mapping.generatedOffsets).flatten) := by
  intro codes
  induction codes with
  | nil => intro len; simp [originalMappingsAux]
  | cons c rest ih =>
    intro len
    cases c with
    | text s =>
      simp only [originalMappingsAux]
      exact ih (len + s.length)
    | mapped tx src off d =>
      simp only [originalMappingsAux, List.map_cons, List.flatten_cons]
      rw [List.singleton_append]
      apply List.pairwise_cons.mpr
      refine ⟨?_, ih (len + tx.length)⟩
      intro v hv
      have := originalMappingsAux_gen_bound rest (len + tx.length) v hv
      omega

theorem flatten_sublist : ∀ {l1 l2 : List (List Nat)}, l1.Sublist l2 →
    l1.flatten.Sublist l2.flatten := by
  intro l1 l2 h
  induction h with
  | slnil => exact List.Sublist.refl _
  | cons a h ih =>
    rw [List.flatten_cons]
    exact ih.trans (List.sublist_append_right a _)
  | cons₂ a h ih =>
    rw [List.flatten_cons, List.flatten_cons]
    exact ih.append_left a

theorem flatten_length_singletons : ∀ (L : List (List Nat)),
    (∀ x ∈ L, x.length = 1) → L.flatten.length = L.length := by
  intro L
  induction L with
  | nil => intro _; rfl
  | cons x xs ih =>
    intro h
    rw [List.flatten_cons, List.length_append,
      ih (fun y hy => h y (List.mem_cons_of_mem x hy)),
      h x (List.mem_cons_self x xs), List.length_cons]
    omega

theorem exists_first_split (p : Mapping → Bool) :
    ∀ (l : List Mapping), l.any p = true →
    ∃ pre a suf, l = pre ++ a :: suf ∧ (∀ x ∈ pre, p x = false) ∧ p a = true := by
  intro l
  induction l with
  | nil => intro h; simp at h
  | cons x xs ih =>
    intro h
    by_cases hx : p x = true
    · exact ⟨[], x, xs, rfl, by simp, hx⟩
    · have hxf : p x = false := by
        cases hy : p x with
        | false => rfl
        | true => exact absurd hy hx
      rw [List.any_cons, hxf, Bool.false_or] at h
      obtain ⟨pre, a, suf, heq, hpre, hpa⟩ := ih h
      refine ⟨x :: pre, a, suf, ?_, ?_, hpa⟩
      · rw [List.cons_append, heq]
      · intro y hy
        rcases List.mem_cons.mp hy with he | hmem
        · subst he; exact hxf
        · exact hpre y hmem

/-- C4: Compaction correctness: for a code sequence in which exactly `k`
mapped fragments share combine token `t`, `createMappings` produces exactly
one mapping entry for that token, whose three parallel arrays each have
length `k` with elements in first-pass (emission) order; the entry sits at
the position the first occurrence's entry occupies (the number of entries the
pass emits for the preceding fragments), and entries without a token are
emitted unchanged, one per mapped fragment. -/
theorem createMappings_compaction (codes : List Code) (t k : Nat) (hk : 0 < k)
    (hcount : ((originalMappings codes).filter (hasTok t)).length = k) :
    ∃ g gs, (originalMappings codes).filter (hasTok t) = g :: gs ∧
      (createMappings codes).filter (hasTok t) = [mergeGroupAfter g gs] ∧
      (mergeGroupAfter g gs).sourceOffsets =
        (((originalMappings codes).filter (hasTok t)).map Mapping.sourceOffsets).flatten ∧
      (mergeGroupAfter g gs).generatedOffsets =
        (((originalMappings codes).filter (hasTok t)).map Mapping.generatedOffsets).flatten ∧
      (mergeGroupAfter g gs).lengths =
        (((originalMappings codes).filter (hasTok t)).map Mapping.lengths).flatten ∧
      (mergeGroupAfter g gs).sourceOffsets.length = k ∧
      (mergeGroupAfter g gs).generatedOffsets.length = k ∧
      (mergeGroupAfter g gs).lengths.length = k ∧
      (∃ pre first suf, originalMappings codes = pre ++ first :: suf ∧
        (∀ x ∈ pre, hasTok t x = false) ∧ hasTok t first = true ∧
        (createMappings codes).findIdx (hasTok t) = (compactMappings pre).length) ∧
      (createMappings codes).filter noTok = (originalMappings codes).filter noTok := by
  have hcm : createMappings codes = absorb [] (originalMappings codes) := by
    rw [createMappings, compactMappings_eq_absorb]
  have hnodup : NoTokDup ([] : List Mapping) := fun t => by simp
  have hGne : (originalMappings codes).filter (hasTok t) ≠ [] := by
    intro h0
    rw [h0] at hcount
    simp at hcount
    omega
  obtain ⟨g, gs, hG⟩ : ∃ g gs, (originalMappings codes).filter (hasTok t) = g :: gs := by
    cases hF : (originalMappings codes).filter (hasTok t) with
    | nil => exact absurd hF hGne
    | cons g gs => exact ⟨g, gs, rfl⟩
  · have hfil : (createMappings codes).filter (hasTok t) = [mergeGroupAfter g gs] := by
      rw [hcm, filter_hasTok_absorb_of_empty (originalMappings codes) [] t hnodup rfl, hG]
    obtain ⟨hso, hgo, hle, _⟩ := mergeGroupAfter_fields gs g
    have hsoG : (mergeGroupAfter g gs).sourceOffsets =
        (((originalMappings codes).filter (hasTok t)).map Mapping.sourceOffsets).flatten := by
      rw [hG, List.map_cons, List.flatten_cons]
      exact hso
    have hgoG : (mergeGroupAfter g gs).generatedOffsets =
        (((originalMappings codes).filter (hasTok t)).map Mapping.generatedOffsets).flatten := by
      rw [hG, List.map_cons, List.flatten_cons]
      exact hgo
    have hleG : (mergeGroupAfter g gs).lengths =
        (((originalMappings codes).filter (hasTok t)).map Mapping.lengths).flatten := by
      rw [hG, List.map_cons, List.flatten_cons]
      exact hle
    have hmemoms : ∀ m ∈ (originalMappings codes).filter (hasTok t),
        m ∈ originalMappings codes := fun m hm => (List.mem_filter.mp hm).1
    have hlen1 : (mergeGroupAfter g gs).sourceOffsets.length = k := by
      rw [hsoG, flatten_length_singletons]
      · rw [List.length_map]; exact hcount
      · intro x hx
        obtain ⟨m, hm, rfl⟩ := List.mem_map.mp hx
        exact (originalMappingsAux_shape codes 0 m (hmemoms m hm)).1
    have hlen2 : (mergeGroupAfter g gs).generatedOffsets.length = k := by
      rw [hgoG, flatten_length_singletons]
      · rw [List.length_map]; exact hcount
      · intro x hx
        obtain ⟨m, hm, rfl⟩ := List.mem_map.mp hx
        exact (originalMappingsAux_shape codes 0 m (hmemoms m hm)).2.1
    have hlen3 : (mergeGroupAfter g gs).lengths.length = k := by
      rw [hleG, flatten_length_singletons]
      · rw [List.length_map]; exact hcount
      · intro x hx
        obtain ⟨m, hm, rfl⟩ := List.mem_map.mp hx
        exact (originalMappingsAux_shape codes 0 m (hmemoms m hm)).2.2
    have hany : (originalMappings codes).any (hasTok t) = true := by
      have hg : g ∈ (originalMappings codes).filter (hasTok t) := by
        rw [hG]
        exact List.mem_cons_self g gs
      exact List.any_eq_true.mpr
        ⟨g, (List.mem_filter.mp hg).1, (List.mem_filter.mp hg).2⟩
    obtain ⟨pre, first, suf, hsplit, hpre, hfirst⟩ :=
      exists_first_split (hasTok t) (originalMappings codes) hany
    have hpreany : pre.any (hasTok t) = false := by
      cases hx : pre.any (hasTok t) with
      | false => rfl
      | true =>
        obtain ⟨x, hx1, hx2⟩ := List.any_eq_true.mp hx
        rw [hpre x hx1] at hx2
        exact absurd hx2 (by decide)
    have hAany : (absorb [] pre).any (hasTok t) = false := by
      rw [any_absorb pre [] t]
      simp [hpreany]
    have htokf : first.data.combineToken = some t := (hasTok_iff t first).mp hfirst
    have hstep1 : absorbStep (absorb [] pre) first = absorb [] pre ++ [first] := by
      simp only [absorbStep, htokf]
      rw [if_neg (by rw [hAany]; exact Bool.false_ne_true)]
    have habs : absorb [] (originalMappings codes) =
        absorb (absorbStep (absorb [] pre) first) suf := by
      rw [hsplit, absorb, List.foldl_append, List.foldl_cons]
      rfl
    have hany2 : (absorb [] pre ++ [first]).any (hasTok t) = true := by
      rw [List.any_append]
      simp [hfirst]
    have hidx : (createMappings codes).findIdx (hasTok t) =
        (compactMappings pre).length := by
      rw [hcm, habs, hstep1, findIdx_absorb_of_any suf _ t hany2,
        findIdx_append_of_not _ _ _ hAany, List.findIdx_cons, hfirst,
        compactMappings_eq_absorb]
      rfl
    have hnt : (createMappings codes).filter noTok =
        (originalMappings codes).filter noTok := by
      rw [hcm, filter_noTok_absorb (originalMappings codes) []]
      rfl
    exact ⟨g, gs, hG, hfil, hsoG, hgoG, hleG, hlen1, hlen2, hlen3,
      ⟨pre, first, suf, hsplit, hpre, hfirst, hidx⟩, hnt⟩

/-- Codes used to witness C4: two fragments sharing token 7. -/
def codesC4 : List Code :=
  [.mapped "ab" none 4 { combineToken := some 7 }, .text "xy",
   .mapped "c" none 9 { combineToken := some 7 }]

/-- C4 witness: the theorem applied to `codesC4`, token 7, k = 2. -/
theorem createMappings_compaction_witness :
    (0 < 2 ∧ ((originalMappings codesC4).filter (hasTok 7)).length = 2) ∧
    (∃ g gs, (originalMappings codesC4).filter (hasTok 7) = g :: gs ∧
      (createMappings codesC4).filter (hasTok 7) = [mergeGroupAfter g gs] ∧
      (mergeGroupAfter g gs).sourceOffsets =
        (((originalMappings codesC4).filter (hasTok 7)).map Mapping.sourceOffsets).flatten ∧
      (mergeGroupAfter g gs).generatedOffsets =
        (((originalMappings codesC4).filter (hasTok 7)).map Mapping.generatedOffsets).flatten ∧
      (mergeGroupAfter g gs).lengths =
        (((originalMappings codesC4).filter (hasTok 7)).map Mapping.lengths).flatten ∧
      (mergeGroupAfter g gs).sourceOffsets.length = 2 ∧
      (mergeGroupAfter g gs).generatedOffsets.length = 2 ∧
      (mergeGroupAfter g gs).lengths.length = 2 ∧
      (∃ pre first suf, originalMappings codesC4 = pre ++ first :: suf ∧
        (∀ x ∈ pre, hasTok 7 x = false) ∧ hasTok 7 first = true ∧
        (createMappings codesC4).findIdx (hasTok 7) = (compactMappings pre).length) ∧
      (createMappings codesC4).filter noTok = (originalMappings codesC4).filter noTok) :=
  ⟨⟨by decide, rfl⟩, createMappings_compaction codesC4 7 2 (by decide) rfl⟩

/-- C9: Offset monotonicity: in every mapping entry produced by
`createMappings` — including entries combined from several same-token
fragments — the `generatedOffsets` array is non-decreasing. -/
theorem generated_offsets_monotone (codes : List Code) (e : Mapping)
    (he : e ∈ createMappings codes) :
    List.Pairwise (· ≤ ·) e.generatedOffsets := by
  have hcm : createMappings codes = absorb [] (originalMappings codes) := by
    rw [createMappings, compactMappings_eq_absorb]
  have hnodup : NoTokDup ([] : List Mapping) := fun t => by simp
  cases htok : e.data.combineToken with
  | none =>
    have hnt : noTok e = true := by simp [noTok, htok]
    have hmem : e ∈ (createMappings codes).filter noTok := List.mem_filter.mpr ⟨he, hnt⟩
    rw [hcm, filter_noTok_absorb (originalMappings codes) []] at hmem
    simp only [List.filter_nil, List.nil_append] at hmem
    have hmem2 : e ∈ originalMappings codes := (List.mem_filter.mp hmem).1
    have hshape := (originalMappingsAux_shape codes 0 e hmem2).2.1
    cases hgo : e.generatedOffsets with
    | nil => exact List.Pairwise.nil
    | cons x xs =>
      rw [hgo] at hshape
      cases xs with
      | nil => exact List.pairwise_singleton _ _
      | cons y ys => simp at hshape
  | some t =>
    have hht : hasTok t e = true := by simp [hasTok, htok]
    have hmem : e ∈ (createMappings codes).filter (hasTok t) :=
      List.mem_filter.mpr ⟨he, hht⟩
    rw [hcm, filter_hasTok_absorb_of_empty (originalMappings codes) [] t hnodup rfl]
      at hmem
    cases hG : (originalMappings codes).filter (hasTok t) with
    | nil =>
      rw [hG] at hmem
      simp at hmem
    | cons g gs =>
      rw [hG] at hmem
      have he2 : e = mergeGroupAfter g gs := by simpa using hmem
      obtain ⟨_, hgo, _, _⟩ := mergeGroupAfter_fields gs g
      rw [he2, hgo]
      have hflat : g.generatedOffsets ++ (gs.map Mapping.generatedOffsets).flatten =
          (((originalMappings codes).filter (hasTok t)).map Mapping.generatedOffsets).flatten := by
        rw [hG, List.map_cons, List.flatten_cons]
      rw [hflat]
      have hsub : (((originalMappings codes).filter (hasTok t)).map
          Mapping.generatedOffsets).Sublist
          ((originalMappings codes).map Mapping.generatedOffsets) :=
        (List.filter_sublist _).map Mapping.generatedOffsets
      exact (originalMappingsAux_gen_sorted codes 0).sublist (flatten_sublist hsub)

/-- Codes used to witness C9: two fragments sharing token 3. -/
def codesC9 : List Code :=
  [.mapped "ab" none 0 { combineToken := some 3 }, .text "Z",
   .mapped "c" none 9 { combineToken := some 3 }]

/-- The single combined entry produced for `codesC9`. -/
def entryC9 : Mapping := ⟨[0, 9], [0, 3], [2, 1], { combineToken := some 3 }⟩

/-- C9 witness: the combined entry of `codesC9` has non-decreasing generated
offsets. -/
theorem generated_offsets_monotone_witness :
    entryC9 ∈ createMappings codesC9 ∧
    List.Pairwise (· ≤ ·) entryC9.generatedOffsets := by
  have hm : entryC9 ∈ createMappings codesC9 := by
    rw [show createMappings codesC9 = [entryC9] from rfl]
    exact List.mem_singleton_self entryC9
  exact ⟨hm, generated_offsets_monotone codesC9 entryC9 hm⟩

/-- C10: the representative-metadata invariant: a combined mapping entry's
`data` is exactly the data object of the first fragment carrying that token;
the data attached to subsequent same-token fragments (such as a boundary's
closing marker) is discarded — the merged entry is the only token-`t` entry
the position map retains, so queries never consult the later data objects. -/
theorem combined_entry_data_first (codes : List Code) (t : Nat) (g : Mapping)
    (gs : List Mapping)
    (hG : (originalMappings codes).filter (hasTok t) = g :: gs) (hgs : gs ≠ []) :
    (createMappings codes).filter (hasTok t) = [mergeGroupAfter g gs] ∧
    (mergeGroupAfter g gs).data = g.data ∧
    (∀ e ∈ createMappings codes, hasTok t e = true → e = mergeGroupAfter g gs) := by
  have hcm : createMappings codes = absorb [] (originalMappings codes) := by
    rw [createMappings, compactMappings_eq_absorb]
  have hnodup : NoTokDup ([] : List Mapping) := fun t => by simp
  have hfil : (createMappings codes).filter (hasTok t) = [mergeGroupAfter g gs] := by
    rw [hcm, filter_hasTok_absorb_of_empty (originalMappings codes) [] t hnodup rfl,
      hG]
  refine ⟨hfil, (mergeGroupAfter_fields gs g).2.2.2, ?_⟩
  intro e he hht
  have hmem : e ∈ (createMappings codes).filter (hasTok t) :=
    List.mem_filter.mpr ⟨he, hht⟩
  rw [hfil] at hmem
  simpa using hmem

/-- Codes used to witness C10: an opening boundary fragment carrying a
verification policy and its metadata-less closing fragment. -/
def codesC10 : List Code :=
  [.mapped "" none 10 { verification := some (.bool true), combineToken := some 5 },
   .text "abc",
   .mapped "" none 20 { combineToken := some 5 }]

def gC10 : Mapping :=
  ⟨[10], [0], [0], { verification := some (.bool true), combineToken := some 5 }⟩

def gsC10 : List Mapping := [⟨[20], [3], [0], { combineToken := some 5 }⟩]

/-- C10 witness: the theorem applied to `codesC10` and token 5. -/
theorem combined_entry_data_first_witness :
    ((originalMappings codesC10).filter (hasTok 5) = gC10 :: gsC10 ∧ gsC10 ≠ []) ∧
    ((createMappings codesC10).filter (hasTok 5) = [mergeGroupAfter gC10 gsC10] ∧
     (mergeGroupAfter gC10 gsC10).data = gC10.data ∧
     (∀ e ∈ createMappings codesC10, hasTok 5 e = true →
        e = mergeGroupAfter gC10 gsC10)) :=
  ⟨⟨rfl, by simp [gsC10]⟩,
    combined_entry_data_first codesC10 5 gC10 gsC10 rfl (by simp [gsC10])⟩

end VueTsgo
